import Mathlib

/-!
Shallow embedding of the scrobbler analyzer's matching and catalog
subsystems (`src/analyzer`), together with theorems settling the frozen
claims about them.

Python strings are modelled as `List Char`.  Fallible Python values are
`Option`.  Machine-level details (SHA-1) are modelled over `Nat` with
explicit reduction modulo `2 ^ 32`.
-/

/-- Shorthand turning a string literal into the `List Char` model of a
Python string. -/
def lc (s : String) : List Char := s.data

namespace Normalizer

/-- The character class of Python's `\s` used by `str.strip()` and the
`_WHITESPACE_RE = re.compile(r"\s+")` of `normalizer.py` (ASCII whitespace). -/
def pySpace (c : Char) : Bool :=
  c == ' ' || c == '\t' || c == '\n' || c == '\r' || c == '\x0b' || c == '\x0c'

/-- The character class of `_PUNCT_RE = re.compile(r"[‘’“”\-—()]+")`:
curly quotes, ASCII hyphen, em dash and parentheses. -/
def isPunct (c : Char) : Bool :=
  c == '‘' || c == '’' || c == '“' || c == '”' ||
  c == '-' || c == '—' || c == '(' || c == ')'

/-- The word-character class of Python's `\b` boundary (`[A-Za-z0-9_]`,
ASCII scope of the model). -/
def pyWord (c : Char) : Bool :=
  c.isAlpha || c.isDigit || c == '_'

/-- Lowering table for `str.lower()`: ASCII uppercase plus the Latin-1
accented uppercase letters covered by the model. -/
def lowerTable : List (Char × Char) :=
  [('A', 'a'), ('B', 'b'), ('C', 'c'), ('D', 'd'), ('E', 'e'), ('F', 'f'),
   ('G', 'g'), ('H', 'h'), ('I', 'i'), ('J', 'j'), ('K', 'k'), ('L', 'l'),
   ('M', 'm'), ('N', 'n'), ('O', 'o'), ('P', 'p'), ('Q', 'q'), ('R', 'r'),
   ('S', 's'), ('T', 't'), ('U', 'u'), ('V', 'v'), ('W', 'w'), ('X', 'x'),
   ('Y', 'y'), ('Z', 'z'),
   ('É', 'é'), ('È', 'è'), ('Ê', 'ê'), ('Ë', 'ë'),
   ('Á', 'á'), ('À', 'à'), ('Â', 'â'), ('Ä', 'ä'),
   ('Í', 'í'), ('Ì', 'ì'), ('Î', 'î'), ('Ï', 'ï'),
   ('Ó', 'ó'), ('Ò', 'ò'), ('Ô', 'ô'), ('Ö', 'ö'),
   ('Ú', 'ú'), ('Ù', 'ù'), ('Û', 'û'), ('Ü', 'ü'),
   ('Ñ', 'ñ'), ('Ç', 'ç')]

/-- Python `str.lower()` on one character (model scope: ASCII and the
Latin-1 letters of `lowerTable`; identity elsewhere). -/
def pyLower (c : Char) : Char :=
  (lowerTable.lookup c).getD c

/-- `str.lower()` on a whole string. -/
def pyLowerStr : List Char → List Char
  | [] => []
  | c :: r => pyLower c :: pyLowerStr r

/-- Transliteration table modelling the `unidecode` library restricted to
the code points exercised in this development: Latin diacritics plus symbol
transliterations; identity on characters outside the table.  Note that
`unidecode` runs after `str.lower()` and can emit UPPERCASE ASCII (e.g.
`'№' → "No"`, `'℻' → "FAX"`), so normalized output is not always
lower-case. -/
def unidecTable : List (Char × List Char) :=
  [('é', ['e']), ('è', ['e']), ('ê', ['e']), ('ë', ['e']),
   ('á', ['a']), ('à', ['a']), ('â', ['a']), ('ä', ['a']),
   ('í', ['i']), ('ì', ['i']), ('î', ['i']), ('ï', ['i']),
   ('ó', ['o']), ('ò', ['o']), ('ô', ['o']), ('ö', ['o']),
   ('ú', ['u']), ('ù', ['u']), ('û', ['u']), ('ü', ['u']),
   ('ñ', ['n']), ('ç', ['c']), ('ß', ['s', 's']), ('ÿ', ['y']),
   ('№', ['N', 'o']), ('℻', ['F', 'A', 'X'])]

/-- `unidecode` on one character. -/
def unidecChar (c : Char) : List Char :=
  (unidecTable.lookup c).getD [c]

/-- `unidecode` on a whole string. -/
def unidecStr : List Char → List Char
  | [] => []
  | c :: r => unidecChar c ++ unidecStr r

/-- Drop the trailing run of Python whitespace. -/
def rstripGo : List Char → List Char
  | [] => []
  | c :: r =>
    let r2 := rstripGo r
    if r2 = [] then (if pySpace c then [] else [c]) else c :: r2

/-- Python `str.strip()`: drop whitespace from both ends. -/
def pyStrip (s : List Char) : List Char :=
  rstripGo (s.dropWhile pySpace)

/-- `_PUNCT_RE.sub(" ", s)`: each maximal run of punctuation characters is
replaced by a single space.  The boolean records whether the previous
character belonged to a punctuation run. -/
def punctGo : Bool → List Char → List Char
  | _, [] => []
  | inRun, c :: r =>
    if isPunct c then
      if inRun then punctGo true r else ' ' :: punctGo true r
    else c :: punctGo false r

/-- `_PUNCT_RE.sub(" ", s)`. -/
def punctSub (s : List Char) : List Char := punctGo false s

/-- `_WHITESPACE_RE.sub(" ", s)`: each maximal whitespace run becomes one
space. -/
def wsGo : Bool → List Char → List Char
  | _, [] => []
  | inRun, c :: r =>
    if pySpace c then
      if inRun then wsGo true r else ' ' :: wsGo true r
    else c :: wsGo false r

/-- `_WHITESPACE_RE.sub(" ", s)`. -/
def wsCollapse (s : List Char) : List Char := wsGo false s

/-- ASCII lower used by the `re.IGNORECASE` comparison inside the remix and
feat patterns (both patterns are ASCII, so the flag folds ASCII case). -/
def asciiLower (c : Char) : Char :=
  if 'A' ≤ c ∧ c ≤ 'Z' then Char.ofNat (c.toNat + 32) else c

/-- Attempt of `_FEAT_RE = re.compile(r"\bfeat(?:\.|uring)?\b", re.I)` at the
head of `s`, assuming the leading `\b` already holds.  Returns the length of
the match: the regex engine greedily tries the alternative `\.` first (which
needs a following word character for the trailing `\b`), then `uring`, then
the empty alternative.  Letters are compared case-insensitively, per the
pattern's `re.IGNORECASE` flag. -/
def featMatch : List Char → Option Nat
  | a :: b :: c :: d :: rest =>
    if asciiLower a = 'f' ∧ asciiLower b = 'e' ∧ asciiLower c = 'a' ∧
        asciiLower d = 't' then
      match rest with
      | '.' :: e :: _ => if pyWord e then some 5 else some 4
      | '.' :: [] => some 4
      | e1 :: e2 :: e3 :: e4 :: e5 :: rest2 =>
        if asciiLower e1 = 'u' ∧ asciiLower e2 = 'r' ∧ asciiLower e3 = 'i' ∧
            asciiLower e4 = 'n' ∧ asciiLower e5 = 'g' then
          match rest2 with
          | [] => some 9
          | f :: _ => if pyWord f then none else some 9
        else if pyWord e1 then none else some 4
      | [] => some 4
      | e :: _ => if pyWord e then none else some 4
    else none
  | _ => none

/-- Scanner of `_FEAT_RE.sub("feat", s)`.  `prevWord` tracks whether the
previous character of the original string is a word character (for the
leading `\b`); `fuel` bounds the recursion and is at least the length of the
remaining input at every call. -/
def featGo : Nat → Bool → List Char → List Char
  | 0, _, s => s
  | _ + 1, _, [] => []
  | fuel + 1, prevWord, c :: r =>
    if prevWord then c :: featGo fuel (pyWord c) r
    else
      match featMatch (c :: r) with
      | some n => 'f' :: 'e' :: 'a' :: 't' :: featGo fuel (n ≠ 5) ((c :: r).drop n)
      | none => c :: featGo fuel (pyWord c) r

/-- `_FEAT_RE.sub("feat", s)`. -/
def featSub (s : List Char) : List Char := featGo s.length false s

/-- Whether `pat` occurs as a contiguous substring of `s`. -/
def containsSub (s pat : List Char) : Bool :=
  match s with
  | [] => pat.isPrefixOf ([] : List Char)
  | _ :: r => pat.isPrefixOf s || containsSub r pat

/-- Whether a parenthetical content contains `remix` case-insensitively. -/
def hasRemix (content : List Char) : Bool :=
  containsSub (content.map asciiLower) (lc "remix")

/-- Scanner of `_REMIX_RE = re.compile(r"\(([^)]*remix[^)]*)\)", re.I)`
substituted by the empty string: at a `(` whose closing `)` exists and whose
content contains `remix`, the whole group is deleted and scanning resumes
after the `)`; otherwise the character is kept. -/
def remixGo : Nat → List Char → List Char
  | 0, s => s
  | _ + 1, [] => []
  | fuel + 1, c :: r =>
    if c = '(' then
      let content := r.takeWhile (fun d => d != ')')
      let rest := r.dropWhile (fun d => d != ')')
      match rest with
      | ')' :: after =>
        if hasRemix content then remixGo fuel after
        else c :: remixGo fuel r
      | _ => c :: remixGo fuel r
    else c :: remixGo fuel r

/-- `_REMIX_RE.sub("", s)`. -/
def remixSub (s : List Char) : List Char := remixGo s.length s

/-- `normalize_text` of `src/analyzer/matching/normalizer.py`, on a
non-empty string: strip, lower, transliterate, punctuation to space,
whitespace collapse (followed by the inline `.strip()`), feat
canonicalization, remix substitution, final strip. -/
def normalizeCore (value : List Char) : List Char :=
  let stripped := pyLowerStr (pyStrip value)
  let asciiOnly := unidecStr stripped
  let withoutPunct := punctSub asciiOnly
  let collapsed := pyStrip (wsCollapse withoutPunct)
  let withoutFeat := featSub collapsed
  let withoutRemix := pyStrip (remixSub withoutFeat)
  withoutRemix

/-- `normalize_text(value: str | None)`: falsy input (None or the empty
string) yields the empty string. -/
def normalize_text : Option (List Char) → List Char
  | none => []
  | some v => if v = [] then [] else normalizeCore v

/-- Join a list of strings with a single-character separator
(Python `sep.flatten(parts)`). -/
def joinWith (sep : Char) : List (List Char) → List Char
  | [] => []
  | [p] => p
  | p :: rest => p ++ sep :: joinWith sep rest

/-- `normalize_tokens(tokens)`: normalize each truthy token and join the
non-empty results with a space. -/
def normalize_tokens (tokens : List (Option (List Char))) : List Char :=
  let parts := (tokens.filter fun t => t ≠ none ∧ t ≠ some []).map normalize_text
  joinWith ' ' (parts.filter fun p => p ≠ [])

/-- Python `round` (banker's rounding, half to even) of the exact rational
`num / den`, for `den > 0`.  `duration_bucket` only divides by the
tolerance, 2 by default, for which float division is exact. -/
def pyRound (num : Int) (den : Int) : Int :=
  let q := Int.fdiv num den
  let r := num - q * den
  if 2 * r < den then q
  else if 2 * r > den then q + 1
  else if q % 2 = 0 then q else q + 1

/-- Decimal digits of a natural number (`fuel`-bounded recursion; the fuel
passed by `natToStr` always suffices). -/
def natDigitsAux : Nat → Nat → List Char
  | 0, _ => []
  | _ + 1, 0 => []
  | fuel + 1, n => natDigitsAux fuel (n / 10) ++ [Char.ofNat (48 + n % 10)]

/-- Python `str` of a non-negative integer. -/
def natToStr (n : Nat) : List Char :=
  if n = 0 then ['0'] else natDigitsAux (n + 1) n

/-- Python `str` of an integer. -/
def intToStr (i : Int) : List Char :=
  if i < 0 then '-' :: natToStr i.natAbs else natToStr i.natAbs

/-- `duration_bucket(duration, tolerance=2)` of `normalizer.py`: `None`
maps to `"na"`, a tolerance below 1 is clamped to 1, and the bucket is
`round(duration / tolerance) * tolerance` rendered in decimal. -/
def duration_bucket (duration : Option Int) (tolerance : Int := 2) : List Char :=
  match duration with
  | none => lc "na"
  | some d =>
    let tol := if tolerance < 1 then 1 else tolerance
    intToStr (pyRound d tol * tol)

end Normalizer

namespace Sha1

/-- UTF-8 encoding of one character (code point split per the standard
1-4 byte patterns). -/
def utf8Char (c : Char) : List Nat :=
  let n := c.toNat
  if n < 0x80 then [n]
  else if n < 0x800 then [0xC0 + n / 64, 0x80 + n % 64]
  else if n < 0x10000 then
    [0xE0 + n / 4096, 0x80 + n / 64 % 64, 0x80 + n % 64]
  else
    [0xF0 + n / 262144, 0x80 + n / 4096 % 64, 0x80 + n / 64 % 64, 0x80 + n % 64]

/-- UTF-8 encoding of a string. -/
def utf8 : List Char → List Nat
  | [] => []
  | c :: r => utf8Char c ++ utf8 r

/-- 32-bit word modulus. -/
def M32 : Nat := 4294967296

/-- Left rotation of a 32-bit word. -/
def rotl (n : Nat) (x : Nat) : Nat :=
  (x * 2 ^ n) % M32 + x / 2 ^ (32 - n)

/-- Big-endian bytes (most significant first) of a value, `k` bytes wide. -/
def beBytes : Nat → Nat → List Nat
  | 0, _ => []
  | k + 1, v => beBytes k (v / 256) ++ [v % 256]

/-- SHA-1 message padding: append `0x80`, zero bytes to 56 mod 64, and the
original bit length as an 8-byte big-endian integer. -/
def pad (msg : List Nat) : List Nat :=
  let ml := msg.length * 8
  let zeros := (64 + 56 - (msg.length + 1) % 64) % 64
  msg ++ [0x80] ++ List.replicate zeros 0 ++ beBytes 8 ml

/-- Split a byte list into 64-byte chunks. -/
def chunks : Nat → List Nat → List (List Nat)
  | 0, _ => []
  | _ + 1, [] => []
  | fuel + 1, bytes => bytes.take 64 :: chunks fuel (bytes.drop 64)

/-- Pack bytes into big-endian 32-bit words. -/
def toWords : Nat → List Nat → List Nat
  | 0, _ => []
  | _ + 1, [] => []
  | fuel + 1, bytes =>
    (bytes.take 4).foldl (fun acc b => acc * 256 + b) 0 :: toWords fuel (bytes.drop 4)

/-- One extension step of the SHA-1 message schedule. -/
def extendStep (w : List Nat) : List Nat :=
  let i := w.length
  w ++ [rotl 1 (((w.getD (i - 3) 0) ^^^ (w.getD (i - 8) 0)) ^^^
       ((w.getD (i - 14) 0) ^^^ (w.getD (i - 16) 0)))]

/-- Extend 16 schedule words to 80. -/
def extendWords (w : List Nat) : List Nat :=
  extendStep^[64] w

/-- The SHA-1 round function and constant for round `i`. -/
def roundFK (i : Nat) (b c d : Nat) : Nat × Nat :=
  if i < 20 then ((b &&& c) ||| ((b ^^^ 4294967295) &&& d), 0x5A827999)
  else if i < 40 then ((b ^^^ c) ^^^ d, 0x6ED9EBA1)
  else if i < 60 then ((b &&& c) ||| (b &&& d) ||| (c &&& d), 0x8F1BBCDC)
  else ((b ^^^ c) ^^^ d, 0xCA62C1D6)

/-- One SHA-1 compression round. -/
def round1 (st : Nat × Nat × Nat × Nat × Nat) (iw : Nat × Nat) :
    Nat × Nat × Nat × Nat × Nat :=
  let (a, b, c, d, e) := st
  let (i, w) := iw
  let (f, k) := roundFK i b c d
  let temp := (rotl 5 a + f + e + k + w) % M32
  (temp, a, rotl 30 b, c, d)

/-- Process one 64-byte chunk against the running hash state. -/
def processChunk (h : Nat × Nat × Nat × Nat × Nat) (chunk : List Nat) :
    Nat × Nat × Nat × Nat × Nat :=
  let w := extendWords (toWords 16 chunk)
  let (h0, h1, h2, h3, h4) := h
  let (a, b, c, d, e) := ((List.range 80).zip w).foldl round1 (h0, h1, h2, h3, h4)
  ((h0 + a) % M32, (h1 + b) % M32, (h2 + c) % M32, (h3 + d) % M32, (h4 + e) % M32)

/-- Hex digit characters of a value, `k` digits wide, most significant
first. -/
def hexDigits : Nat → Nat → List Char
  | 0, _ => []
  | k + 1, v =>
    hexDigits k (v / 16) ++
      [if v % 16 < 10 then Char.ofNat (48 + v % 16) else Char.ofNat (87 + v % 16)]

/-- `hashlib.sha1(msg).hexdigest()` over a byte list. -/
def sha1Hex (msg : List Nat) : List Char :=
  let padded := pad msg
  let (h0, h1, h2, h3, h4) :=
    (chunks (padded.length + 1) padded).foldl processChunk
      (0x67452301, 0xEFCDAB89, 0x98BADCFE, 0x10325476, 0xC3D2E1F0)
  hexDigits 8 h0 ++ hexDigits 8 h1 ++ hexDigits 8 h2 ++ hexDigits 8 h3 ++ hexDigits 8 h4

end Sha1

namespace Uid

open Normalizer Sha1

/-- `make_track_uid` of `src/analyzer/matching/uid.py`: the SHA-1 hex
digest of the pipe-joined normalized artist, title, album and duration
bucket. -/
def make_track_uid (artist title : Option (List Char))
    (album : Option (List Char) := none) (duration : Option Int := none) :
    List Char :=
  let normalized :=
    joinWith '|'
      [normalize_tokens [artist], normalize_tokens [title],
       normalize_tokens [album], duration_bucket duration]
  sha1Hex (utf8 normalized)

end Uid

namespace Catalog

/-- `CatalogNumber` of `src/analyzer/services/catalog_analysis.py`.
`pfx` models the source's `prefix` field. -/
structure CatalogNumber where
  raw : List Char
  pfx : List Char
  number : Nat
  width : Nat
  suffix : List Char
  deriving DecidableEq, Repr

/-- `CatalogRelease`: known release metadata.  The date payload is opaque
to the algorithm and modelled as a numeric token. -/
structure CatalogRelease where
  catalog_id : Option (List Char) := none
  release_title : Option (List Char) := none
  release_artist : Option (List Char) := none
  release_year : Option Int := none
  release_date : Option Nat := none
  release_url : Option (List Char) := none
  deriving DecidableEq, Repr

/-- `CatalogGap`: a detected missing identifier.  `sequence_coverage` is
the exact fraction `(observed, expected)` whose quotient is the float the
source stores; the comparison against `min_coverage` is modelled by exact
cross-multiplication (it agrees with the float comparison at every value
the claims involve). -/
structure CatalogGap where
  catalog_id : List Char
  pfx : List Char
  number : Nat
  sequence_start : List Char
  sequence_end : List Char
  sequence_expected : Nat
  sequence_observed : Nat
  sequence_coverage : Nat × Nat
  release_title : Option (List Char)
  release_artist : Option (List Char)
  release_year : Option Int
  release_date : Option Nat
  release_url : Option (List Char)
  release_catalog_id : Option (List Char)
  deriving DecidableEq, Repr

/-- `_clean_catalog`: strip, then delete every whitespace or underscore
character (`_CLEAN_PATTERN.sub("", ...)`). -/
def cleanCatalog (value : List Char) : List Char :=
  (Normalizer.pyStrip value).filter fun c => ¬(Normalizer.pySpace c || c = '_')

/-- ASCII upper-casing used by `match.group("prefix").upper()`. -/
def asciiUpper (c : Char) : Char :=
  if 'a' ≤ c ∧ c ≤ 'z' then Char.ofNat (c.toNat - 32) else c

/-- Numeric value of an ASCII digit run (`int(digits)`). -/
def digitsToNat (ds : List Char) : Nat :=
  ds.foldl (fun acc c => acc * 10 + (c.toNat - 48)) 0

/-- `parse_catalog_number`: falsy input or input without a leading
alphabetic run followed by a digit run parses to `none`. -/
def parse_catalog_number (value : Option (List Char)) : Option CatalogNumber :=
  match value with
  | none => none
  | some v =>
    if v = [] then none
    else
      let cleaned := cleanCatalog v
      if cleaned = [] then none
      else
        let alphaRun := cleaned.takeWhile Char.isAlpha
        let afterAlpha := cleaned.dropWhile Char.isAlpha
        let digitRun := afterAlpha.takeWhile Char.isDigit
        let suffix := afterAlpha.dropWhile Char.isDigit
        if alphaRun = [] then none
        else if digitRun = [] then none
        else
          some
            { raw := v
              pfx := alphaRun.map asciiUpper
              number := digitsToNat digitRun
              width := digitRun.length
              suffix := suffix }

/-- Append an entry to its prefix group, preserving first-occurrence group
order (Python `defaultdict` insertion order). -/
def addToGroup (entry : CatalogNumber) :
    List (List Char × List CatalogNumber) → List (List Char × List CatalogNumber)
  | [] => [(entry.pfx, [entry])]
  | (k, es) :: rest =>
    if k = entry.pfx then (k, es ++ [entry]) :: rest
    else (k, es) :: addToGroup entry rest

/-- Group observed catalog numbers by prefix in insertion order. -/
def groupByPfx (observed : List CatalogNumber) :
    List (List Char × List CatalogNumber) :=
  observed.foldl (fun acc e => addToGroup e acc) []

/-- The widths recorded for one numeric value, in entry order
(`widths[entry.number].append(entry.width)`). -/
def widthsFor (entries : List CatalogNumber) (n : Nat) : List Nat :=
  (entries.filter fun e => e.number = n).map CatalogNumber.width

/-- The segmentation loop: split the ascending distinct numbers wherever
the jump exceeds `maxGap`, keeping only segments of length at least
`minLen`.  `segRev` holds the current segment reversed. -/
def segGo (minLen : Nat) (maxGap : Int) (segRev : List Nat) (current : Nat) :
    List Nat → List (List Nat)
  | [] =>
    if minLen ≤ (current :: segRev).length then [(current :: segRev).reverse] else []
  | nxt :: rest =>
    if (nxt : Int) - current ≤ maxGap then segGo minLen maxGap (current :: segRev) nxt rest
    else
      (if minLen ≤ (current :: segRev).length then [(current :: segRev).reverse] else []) ++
        segGo minLen maxGap [] nxt rest

/-- Segments of an ascending list of distinct numbers. -/
def segments (minLen : Nat) (maxGap : Int) : List Nat → List (List Nat)
  | [] => []
  | n :: rest => segGo minLen maxGap [] n rest

/-- Increment a key of an insertion-ordered counter (`Counter` update). -/
def countAdd : List (Nat × Nat) → Nat → List (Nat × Nat)
  | [], w => [(w, 1)]
  | (k, c) :: rest, w =>
    if k = w then (k, c + 1) :: rest else (k, c) :: countAdd rest w

/-- Build an insertion-ordered counter from a list. -/
def counterOf (ws : List Nat) : List (Nat × Nat) :=
  ws.foldl countAdd []

/-- One step of scanning for the first maximal-count entry (Python's
`most_common` sorts stably by descending count, so an entry only displaces
the current best when its count is strictly larger). -/
def pickMax (best : Option (Nat × Nat)) (p : Nat × Nat) : Option (Nat × Nat) :=
  match best with
  | none => some p
  | some q => if q.2 < p.2 then some p else some q

/-- `Counter.most_common(1)[0][0]`: the first key of maximal count in
insertion order. -/
def mostCommon1 (c : List (Nat × Nat)) : Option Nat :=
  (c.foldl pickMax none).map Prod.fst

/-- `_format_catalog`: a known release's truthy `catalog_id` wins; otherwise
the number is zero-padded to `width` when that is wider than its digits. -/
def formatCatalog (pfx : List Char) (number : Nat) (width : Nat)
    (release : Option CatalogRelease := none) : List Char :=
  let fallback :=
    let digits := Normalizer.natToStr number
    let padded :=
      if width > digits.length then List.replicate (width - digits.length) '0' ++ digits
      else digits
    pfx ++ padded
  match release with
  | some rel =>
    match rel.catalog_id with
    | some cid => if cid = [] then fallback else cid
    | none => fallback
  | none => fallback

/-- Lexicographic comparison of model strings by code point (Python string
`<`). -/
def strLt : List Char → List Char → Bool
  | [], [] => false
  | [], _ :: _ => true
  | _ :: _, [] => false
  | a :: as, b :: bs => a.toNat < b.toNat || (a = b && strLt as bs)

/-- The `sorted(..., key=lambda entry: (entry.prefix, entry.number))`
order. -/
def gapLe (a b : CatalogGap) : Bool :=
  strLt a.pfx b.pfx || (a.pfx = b.pfx && a.number ≤ b.number)

/-- The gaps emitted for one retained segment of one prefix group. -/
def segmentGaps (releases : List ((List Char × Nat) × CatalogRelease))
    (pfx : List Char) (entries : List CatalogNumber) (minLen : Nat)
    (minCoverage : Nat × Nat) (seg : List Nat) : List CatalogGap :=
  if seg.length < minLen then []
  else
    let start := seg.headD 0
    let stop := seg.getLastD 0
    let expected := stop - start + 1
    let observedCount := seg.length
    let coverage : Nat × Nat := if expected = 0 then (0, 1) else (observedCount, expected)
    if coverage.1 * minCoverage.2 < minCoverage.1 * coverage.2 then []
    else
      let ws := (seg.map (widthsFor entries)).flatten
      let defaultWidth :=
        (mostCommon1 (counterOf ws)).getD (Normalizer.natToStr stop).length
      ((List.range' start expected).filter fun candidate => candidate ∉ seg).map
        fun candidate =>
          let release := releases.lookup (pfx, candidate)
          { catalog_id := formatCatalog pfx candidate defaultWidth release
            pfx := pfx
            number := candidate
            sequence_start := formatCatalog pfx start defaultWidth
            sequence_end := formatCatalog pfx stop defaultWidth
            sequence_expected := expected
            sequence_observed := observedCount
            sequence_coverage := coverage
            release_title := release.bind CatalogRelease.release_title
            release_artist := release.bind CatalogRelease.release_artist
            release_year := release.bind CatalogRelease.release_year
            release_date := release.bind CatalogRelease.release_date
            release_url := release.bind CatalogRelease.release_url
            release_catalog_id := release.bind CatalogRelease.catalog_id }

/-- `compute_catalog_gaps`: group by prefix, segment, filter by coverage,
emit the missing numbers, and sort by `(prefix, number)`. -/
def compute_catalog_gaps (observed : List CatalogNumber)
    (releases : List ((List Char × Nat) × CatalogRelease))
    (minSequenceLength : Nat := 5) (maxGap : Int := 5)
    (minCoverage : Nat × Nat := (3, 5)) : List CatalogGap :=
  let perGroup := fun (g : List Char × List CatalogNumber) =>
    let pfx := g.1
    let entries := g.2
    if entries = [] then []
    else
      let numbers :=
        List.insertionSort (· ≤ ·) (entries.map CatalogNumber.number).dedup
      if numbers.length < minSequenceLength then []
      else
        ((segments minSequenceLength maxGap numbers).map
          (segmentGaps releases pfx entries minSequenceLength minCoverage)).flatten
  let gaps := ((groupByPfx observed).map perGroup).flatten
  List.insertionSort (fun a b => gapLe a b = true) gaps

end Catalog

namespace Db

open Normalizer Uid

/-- A row of the `tracks` table (the columns the analyzer reads). -/
structure Track where
  id : Nat
  track_uid : List Char
  title_normalized : List Char
  primary_artist_id : Option Nat
  duration_secs : Option Int
  deriving DecidableEq, Repr

/-- A row of the `artists` table. -/
structure Artist where
  id : Nat
  name_normalized : List Char
  deriving DecidableEq, Repr

/-- A row of the `listens` table (the columns the analyzer reads and
writes).  Raw metadata columns are nullable. -/
structure Listen where
  id : Nat
  artist_name_raw : Option (List Char)
  track_title_raw : Option (List Char)
  album_title_raw : Option (List Char)
  duration_secs : Option Int
  listened_at : Nat
  enrich_status : List Char
  match_confidence : Option Int
  track_id : Option Nat
  deriving DecidableEq, Repr

/-- A row of `listen_match_candidates`. -/
structure CandidateRow where
  listen_id : Nat
  track_id : Nat
  confidence : Int
  deriving DecidableEq, Repr

/-- A row of `artist_aliases` (`artist_id` comes from the track's nullable
`primary_artist_id`). -/
structure ArtistAliasRow where
  artist_id : Option Nat
  alias_normalized : List Char
  deriving DecidableEq, Repr

/-- A row of `title_aliases`. -/
structure TitleAliasRow where
  track_id : Nat
  alias_normalized : List Char
  deriving DecidableEq, Repr

/-- The database state visible to `AnalyzerRepository`. -/
structure DB where
  tracks : List Track
  artists : List Artist
  listens : List Listen
  candidates : List CandidateRow
  artist_aliases : List ArtistAliasRow
  title_aliases : List TitleAliasRow
  deriving DecidableEq, Repr

/-- `find_track_by_uid`: first track row whose `track_uid` matches. -/
def find_track_by_uid (db : DB) (uid : List Char) : Option Track :=
  db.tracks.find? fun t => t.track_uid = uid

/-- The outer-joined artist name of a track (`NULL` when there is no
primary artist or no matching artist row). -/
def artistNameOf (db : DB) (t : Track) : Option (List Char) :=
  t.primary_artist_id.bind fun aid =>
    (db.artists.find? fun a => a.id = aid).map Artist.name_normalized

/-- The active textual filter derived from one raw input:
`normalize_text(x) if x else None`, then dropped again when the normalized
form is falsy (`if normalized: filters.append(...)`). -/
def activeFilter (x : Option (List Char)) : Option (List Char) :=
  match x with
  | none => none
  | some v =>
    if v = [] then none
    else
      let n := normalize_text (some v)
      if n = [] then none else some n

/-- The confidence assigned to one result row of
`search_tracks_by_metadata`: 80 when both durations are present and within
2 seconds, 50 otherwise. -/
def rowConfidence (duration : Option Int) (trackDuration : Option Int) : Int :=
  match duration, trackDuration with
  | some d, some td => if (td - d).natAbs ≤ 2 then 80 else 50
  | _, _ => 50

/-- `search_tracks_by_metadata`: an `OR` of substring filters over the
normalized artist name and normalized title (each filter present only when
its input and its normalization are truthy), `LIMIT limit`, and per-row
confidence scoring.  With no active filter the `WHERE` clause is omitted
entirely. -/
def search_tracks_by_metadata (db : DB) (artist title : Option (List Char))
    (duration : Option Int) (limit : Nat) : List (Nat × Int) :=
  let na := activeFilter artist
  let nt := activeFilter title
  let rowPasses := fun (t : Track) =>
    (match na with
     | some f =>
       match artistNameOf db t with
       | some nm => Normalizer.containsSub nm f
       | none => false
     | none => false) ||
    (match nt with
     | some f => Normalizer.containsSub t.title_normalized f
     | none => false)
  let filtered :=
    if na = none ∧ nt = none then db.tracks else db.tracks.filter rowPasses
  (filtered.take limit).map fun t => (t.id, rowConfidence duration t.duration_secs)

/-- `link_listen`: set track, status and confidence on the listen row and
delete its stored candidates. -/
def link_listen (db : DB) (listen_id track_id : Nat) (status : List Char)
    (confidence : Int) : DB :=
  { db with
    listens :=
      db.listens.map fun l =>
        if l.id = listen_id then
          { l with
            track_id := some track_id
            enrich_status := status
            match_confidence := some confidence }
        else l
    candidates := db.candidates.filter fun c => c.listen_id ≠ listen_id }

/-- `store_candidates`: replace the listen's candidate set (entries whose
`track_id` is missing are skipped) and return the stored payload. -/
def store_candidates (db : DB) (listen_id : Nat)
    (cands : List (Option Nat × Int)) : List (Nat × Int) × DB :=
  let stored := cands.filterMap fun c => c.1.map fun tid => (tid, c.2)
  (stored,
   { db with
     candidates :=
       (db.candidates.filter fun c => c.listen_id ≠ listen_id) ++
         stored.map fun s => { listen_id := listen_id, track_id := s.1, confidence := s.2 } })

/-- `mark_listen_status`: update status and confidence of the listen. -/
def mark_listen_status (db : DB) (listen_id : Nat) (status : List Char)
    (confidence : Option Int) : DB :=
  { db with
    listens :=
      db.listens.map fun l =>
        if l.id = listen_id then
          { l with enrich_status := status, match_confidence := confidence }
        else l }

/-- `fetch_pending_listens`: listens with status `pending` or `unmatched`,
optionally bounded below by `since`, ordered by `listened_at` ascending,
first `limit` rows. -/
def fetch_pending_listens (db : DB) (since : Option Nat) (limit : Nat) :
    List Listen :=
  let base :=
    db.listens.filter fun l =>
      l.enrich_status = lc "pending" ∨ l.enrich_status = lc "unmatched"
  let bounded :=
    match since with
    | none => base
    | some s => base.filter fun l => s ≤ l.listened_at
  (List.insertionSort (fun a b => a.listened_at ≤ b.listened_at) bounded).take limit

/-- The artist half of `learn_aliases_from_listen`: needs the track row
(`if track_row and artist_alias`), a truthy raw artist string, and a
lower-cased key absent from the whole `artist_aliases` table. -/
def learnArtistAlias (db : DB) (l : Listen) (track_id : Nat) : DB :=
  match db.tracks.find? fun t => t.id = track_id, l.artist_name_raw with
  | some tr, some a =>
    if a = [] then db
    else
      let key := Normalizer.pyLowerStr a
      if db.artist_aliases.any fun r => r.alias_normalized = key then db
      else
        { db with
          artist_aliases := db.artist_aliases ++ [⟨tr.primary_artist_id, key⟩] }
  | _, _ => db

/-- The title half of `learn_aliases_from_listen`: needs only a truthy raw
title string and a lower-cased key absent from the whole `title_aliases`
table. -/
def learnTitleAlias (db : DB) (l : Listen) (track_id : Nat) : DB :=
  match l.track_title_raw with
  | none => db
  | some t =>
    if t = [] then db
    else
      let key := Normalizer.pyLowerStr t
      if db.title_aliases.any fun r => r.alias_normalized = key then db
      else { db with title_aliases := db.title_aliases ++ [⟨track_id, key⟩] }

/-- `learn_aliases_from_listen`: store the raw artist and title strings,
lower-cased, as aliases; an alias whose lower-cased key already exists
anywhere in the same alias table is skipped. -/
def learn_aliases_from_listen (db : DB) (listen_id track_id : Nat) : DB :=
  match db.listens.find? fun l => l.id = listen_id with
  | none => db
  | some l => learnTitleAlias (learnArtistAlias db l track_id) l track_id

end Db

namespace Services

open Db Normalizer Uid

/-- `MatchResult` of `match_service.py` (the `candidates` field is always
empty in the deterministic path and unused by callers). -/
structure MatchResult where
  status : List Char
  track_id : Option Nat
  confidence : Option Int
  deriving DecidableEq, Repr

/-- `MatchService.deterministic_match`: UID lookup, confidence 100 on a
hit. -/
def deterministic_match (db : DB) (artist title album : Option (List Char))
    (duration : Option Int) : MatchResult :=
  let uid := make_track_uid artist title album duration
  match find_track_by_uid db uid with
  | some t => { status := lc "matched", track_id := some t.id, confidence := some 100 }
  | none => { status := lc "unmatched", track_id := none, confidence := none }

/-- `MatchService.find_candidates` (materialized; the source yields the
same pairs in the same order). -/
def find_candidates (db : DB) (artist title : Option (List Char))
    (duration : Option Int) (limit : Nat := 5) : List (Nat × Int) :=
  search_tracks_by_metadata db artist title duration limit

/-- Python truthiness of `result.status == "matched" and result.track_id`. -/
def isMatchHit (r : MatchResult) : Bool :=
  r.status = lc "matched" &&
    match r.track_id with
    | some tid => tid ≠ 0
    | none => false

/-- `result.confidence or 100` (a falsy confidence, `None` or 0, becomes
100). -/
def confOr100 (c : Option Int) : Int :=
  match c with
  | some v => if v = 0 then 100 else v
  | none => 100

/-- The enrichment counters returned by `enrich_pending`. -/
structure Counts where
  processed : Nat
  matched : Nat
  ambiguous : Nat
  unmatched : Nat
  deriving DecidableEq, Repr

/-- One iteration of the `enrich_pending` loop on the fetched listen
snapshot `l`. -/
def enrichStep (acc : Counts × DB) (l : Listen) : Counts × DB :=
  let cnt0 := acc.1
  let db := acc.2
  let cnt := { cnt0 with processed := cnt0.processed + 1 }
  let result :=
    deterministic_match db l.artist_name_raw l.track_title_raw
      l.album_title_raw l.duration_secs
  if isMatchHit result then
    ({ cnt with matched := cnt.matched + 1 },
     link_listen db l.id (result.track_id.getD 0) (lc "matched")
       (confOr100 result.confidence))
  else
    let payload :=
      (find_candidates db l.artist_name_raw l.track_title_raw l.duration_secs).map
        fun c => ((some c.1 : Option Nat), c.2)
    let stored := (store_candidates db l.id payload).1
    let db1 := (store_candidates db l.id payload).2
    match stored with
    | [] =>
      ({ cnt with unmatched := cnt.unmatched + 1 },
       mark_listen_status db1 l.id (lc "unmatched") none)
    | s :: rest =>
      let best := (rest.map Prod.snd).foldl max s.2
      ({ cnt with ambiguous := cnt.ambiguous + 1 },
       mark_listen_status db1 l.id (lc "ambiguous") (some best))

/-- `EnrichmentService.enrich_pending`. -/
def enrich_pending (db : DB) (since : Option Nat) (limit : Nat) :
    Counts × DB :=
  (fetch_pending_listens db since limit).foldl enrichStep
    ({ processed := 0, matched := 0, ambiguous := 0, unmatched := 0 }, db)

/-- `EnrichmentService.confirm_match`. -/
def confirm_match (db : DB) (listen_id track_id : Nat)
    (learnAliases : Bool) : DB :=
  let db1 := link_listen db listen_id track_id (lc "matched") 100
  if learnAliases then learn_aliases_from_listen db1 listen_id track_id else db1

end Services

/-! ## Definitions supporting the claim statements -/

namespace Normalizer

/-- No two adjacent spaces (the fixed points of `wsCollapse` among
space-canonical strings). -/
abbrev NoDouble (t : List Char) : Prop :=
  List.Chain' (fun a b => ¬(a = ' ' ∧ b = ' ')) t

/-- A character that the transliteration, punctuation and whitespace stages
leave alone.  Lower-casing is NOT included: `unidecode` runs after
`str.lower()` and can emit uppercase ASCII (e.g. `'№' → "No"`), so a
normalized string need not be fixed by `str.lower()`. -/
abbrev GoodChar (c : Char) : Prop :=
  unidecChar c = [c] ∧ isPunct c = false ∧ (pySpace c = true → c = ' ')

end Normalizer

namespace Catalog

/-- The number of occurrences of a width in a width list. -/
def countIn (ws : List Nat) (w : Nat) : Nat :=
  (ws.filter fun x => x = w).length

/-- The claim's reading of the tie-break, stated from the spec's words:
among the widths of maximal frequency, choose the smallest. -/
def specTieWidth (ws : List Nat) : Option Nat :=
  ws.dedup.foldl
    (fun best w =>
      match best with
      | none => some w
      | some b =>
        if countIn ws b < countIn ws w then some w
        else if countIn ws w = countIn ws b ∧ w < b then some w
        else some b)
    none

/-- A string that starts with a non-empty alphabetic run followed
immediately by a digit: the shape `parse_catalog_number` accepts after
cleaning. -/
def catalogShape (c : List Char) : Prop :=
  ∃ a d r, c = a ++ d ++ r ∧ a ≠ [] ∧ d ≠ [] ∧
    (∀ x ∈ a, x.isAlpha = true) ∧ (∀ x ∈ d, x.isDigit = true)

end Catalog

namespace Db

/-- The multiplicity of an artist-alias key. -/
def artistKeyCount (db : DB) (key : List Char) : Nat :=
  (db.artist_aliases.filter fun r => r.alias_normalized = key).length

/-- The multiplicity of a title-alias key. -/
def titleKeyCount (db : DB) (key : List Char) : Nat :=
  (db.title_aliases.filter fun r => r.alias_normalized = key).length

/-- The stored candidate rows of one listen, in table order. -/
def candsOf (db : DB) (listen_id : Nat) : List CandidateRow :=
  db.candidates.filter fun c => c.listen_id = listen_id

/-- A concrete database exercising the alias learner: one listen with an
accented raw artist, one track owned by artist 5, and a pre-existing title
alias `"x"` owned by the unrelated track 99. -/
def aliasExampleDb : DB :=
  { tracks := [{ id := 10, track_uid := lc "u", title_normalized := lc "x",
                 primary_artist_id := some 5, duration_secs := none }]
    artists := []
    listens := [{ id := 1, artist_name_raw := some (lc "Beyoncé"),
                  track_title_raw := some (lc "X"), album_title_raw := none,
                  duration_secs := none, listened_at := 0,
                  enrich_status := lc "pending", match_confidence := none,
                  track_id := none }]
    candidates := []
    artist_aliases := []
    title_aliases := [{ track_id := 99, alias_normalized := lc "x" }] }

/-- A listen with truthy raw artist and title strings, for exercising
`confirm_match`. -/
def confirmListen : Listen :=
  { id := 1, artist_name_raw := some (lc "A"), track_title_raw := some (lc "T"),
    album_title_raw := none, duration_secs := none, listened_at := 0,
    enrich_status := lc "ambiguous", match_confidence := some 50,
    track_id := none }

/-- The track confirmed against `confirmListen`. -/
def confirmTrack : Track :=
  { id := 10, track_uid := lc "u", title_normalized := lc "t",
    primary_artist_id := some 5, duration_secs := none }

/-- A database for exercising `confirm_match` with alias learning. -/
def confirmExampleDb : DB :=
  { tracks := [confirmTrack], artists := [], listens := [confirmListen],
    candidates := [], artist_aliases := [], title_aliases := [] }

/-- A database with one pending listen carrying empty raw metadata and one
unrelated library track. -/
def emptyMetaDb : DB :=
  { tracks := [{ id := 77, track_uid := lc "deadbeef",
                 title_normalized := lc "some unrelated track",
                 primary_artist_id := none, duration_secs := none }]
    artists := []
    listens := [{ id := 1, artist_name_raw := some [],
                  track_title_raw := some [], album_title_raw := none,
                  duration_secs := none, listened_at := 0,
                  enrich_status := lc "pending", match_confidence := none,
                  track_id := none }]
    candidates := []
    artist_aliases := []
    title_aliases := [] }

end Db

namespace Services

open Db

/-- The claim's specification of the single outcome a fetched listen
receives in `enrich_pending`, read against the final state `dbF`: the
deterministic match and the fuzzy search are evaluated over the initial
state `db0` (the library tables are never written by the loop). -/
def listenOutcome (db0 dbF : DB) (l : Listen) : Prop :=
  let r := deterministic_match db0 l.artist_name_raw l.track_title_raw
    l.album_title_raw l.duration_secs
  if isMatchHit r then
    (∀ row ∈ dbF.listens, row.id = l.id →
      row.enrich_status = lc "matched" ∧ row.match_confidence = some 100 ∧
        row.track_id = r.track_id) ∧
    Db.candsOf dbF l.id = []
  else
    let cands := find_candidates db0 l.artist_name_raw l.track_title_raw
      l.duration_secs
    if cands = [] then
      ∀ row ∈ dbF.listens, row.id = l.id →
        row.enrich_status = lc "unmatched" ∧ row.match_confidence = none
    else
      Db.candsOf dbF l.id =
        cands.map (fun c => { listen_id := l.id, track_id := c.1, confidence := c.2 }) ∧
      ∃ best, (∀ row ∈ dbF.listens, row.id = l.id →
          row.enrich_status = lc "ambiguous" ∧ row.match_confidence = some best) ∧
        best ∈ cands.map Prod.snd ∧ ∀ x ∈ cands.map Prod.snd, x ≤ best

end Services

/-! ## Helper lemmas -/

namespace Catalog

theorem charToNat_inj {a b : Char} (h : a.toNat = b.toNat) : a = b :=
  Char.eq_of_val_eq (UInt32.toNat.inj h)

theorem strLt_total : ∀ x y : List Char, strLt x y = true ∨ x = y ∨ strLt y x = true
  | [], [] => Or.inr (Or.inl rfl)
  | [], _ :: _ => Or.inl rfl
  | _ :: _, [] => Or.inr (Or.inr rfl)
  | a :: as, b :: bs => by
    rcases Nat.lt_trichotomy a.toNat b.toNat with h | h | h
    · left; simp [strLt, h]
    · have hab : a = b := charToNat_inj h
      subst hab
      rcases strLt_total as bs with h2 | h2 | h2
      · left; simp [strLt, h2]
      · exact Or.inr (Or.inl (by rw [h2]))
      · right; right; simp [strLt, h2]
    · right; right; simp [strLt, h]

theorem strLt_trans : ∀ x y z : List Char,
    strLt x y = true → strLt y z = true → strLt x z = true
  | [], [], _ => by intro h; exact absurd h (by simp [strLt])
  | _ :: _, [], _ => by intro h; exact absurd h (by simp [strLt])
  | [], _ :: _, [] => by intro _ h; exact absurd h (by simp [strLt])
  | [], _ :: _, _ :: _ => by intros; rfl
  | _ :: _, _ :: _, [] => by intro _ h; exact absurd h (by simp [strLt])
  | a :: as, b :: bs, c :: cs => by
    intro h1 h2
    simp only [strLt, Bool.or_eq_true, Bool.and_eq_true, decide_eq_true_eq] at h1 h2 ⊢
    rcases h1 with h1 | ⟨hab, h1⟩
    · rcases h2 with h2 | ⟨hbc, h2⟩
      · exact Or.inl (by omega)
      · subst hbc; exact Or.inl h1
    · subst hab
      rcases h2 with h2 | ⟨hbc, h2⟩
      · exact Or.inl h2
      · subst hbc; exact Or.inr ⟨rfl, strLt_trans as bs cs h1 h2⟩

theorem strLt_irrefl : ∀ x : List Char, strLt x x = false
  | [] => rfl
  | a :: as => by simp [strLt, strLt_irrefl as]

theorem gapLe_total (a b : CatalogGap) : gapLe a b = true ∨ gapLe b a = true := by
  simp only [gapLe, Bool.or_eq_true, Bool.and_eq_true, decide_eq_true_eq]
  rcases strLt_total a.pfx b.pfx with h | h | h
  · exact Or.inl (Or.inl h)
  · rcases Nat.le_total a.number b.number with h2 | h2
    · exact Or.inl (Or.inr ⟨h, h2⟩)
    · exact Or.inr (Or.inr ⟨h.symm, h2⟩)
  · exact Or.inr (Or.inl h)

theorem gapLe_trans (a b c : CatalogGap) (h1 : gapLe a b = true)
    (h2 : gapLe b c = true) : gapLe a c = true := by
  simp only [gapLe, Bool.or_eq_true, Bool.and_eq_true, decide_eq_true_eq] at h1 h2 ⊢
  rcases h1 with h1 | ⟨hab, h1⟩
  · rcases h2 with h2 | ⟨hbc, h2⟩
    · exact Or.inl (strLt_trans _ _ _ h1 h2)
    · exact Or.inl (hbc ▸ h1)
  · rcases h2 with h2 | ⟨hbc, h2⟩
    · exact Or.inl (hab ▸ h2)
    · exact Or.inr ⟨hab.trans hbc, Nat.le_trans h1 h2⟩

/-- `pickMax` folding: the result is either the unchanged accumulator
dominating the whole list, or an element of the list that strictly exceeds
the accumulator and everything before it, and dominates everything after
it. -/
theorem pickMax_fold_spec : ∀ (c : List (Nat × Nat)) (acc : Option (Nat × Nat))
    (p : Nat × Nat), c.foldl pickMax acc = some p →
    (acc = some p ∧ ∀ x ∈ c, x.2 ≤ p.2) ∨
    (∃ pre post, c = pre ++ p :: post ∧ (∀ q, acc = some q → q.2 < p.2) ∧
      (∀ x ∈ pre, x.2 < p.2) ∧ (∀ x ∈ post, x.2 ≤ p.2))
  | [], acc, p => by
    intro h
    exact Or.inl ⟨h, by simp⟩
  | x :: rest, acc, p => by
    intro h
    simp only [List.foldl_cons] at h
    have step : (acc = none ∧ pickMax acc x = some x) ∨
        (∃ q, acc = some q ∧ q.2 < x.2 ∧ pickMax acc x = some x) ∨
        (∃ q, acc = some q ∧ ¬q.2 < x.2 ∧ pickMax acc x = some q) := by
      match acc with
      | none => exact Or.inl ⟨rfl, rfl⟩
      | some q =>
        by_cases hlt2 : q.2 < x.2
        · exact Or.inr (Or.inl ⟨q, rfl, hlt2, by simp [pickMax, hlt2]⟩)
        · exact Or.inr (Or.inr ⟨q, rfl, hlt2, by simp [pickMax, hlt2]⟩)
    rcases pickMax_fold_spec rest (pickMax acc x) p h with
      ⟨hacc, hall⟩ | ⟨pre, post, hsplit, hlt, hpre, hpost⟩
    · -- the accumulator after absorbing x survived the rest of the fold
      rcases step with ⟨hnone, hs⟩ | ⟨q, hq, hqx, hs⟩ | ⟨q, hq, hnlt, hs⟩
      · have hx : x = p := by rw [hs] at hacc; exact Option.some.inj hacc
        subst hx
        refine Or.inr ⟨[], rest, rfl, ?_, ?_, hall⟩
        · intro q hq; rw [hnone] at hq; cases hq
        · intro y hy; cases hy
      · have hx : x = p := by rw [hs] at hacc; exact Option.some.inj hacc
        subst hx
        refine Or.inr ⟨[], rest, rfl, ?_, ?_, hall⟩
        · intro q2 hq2
          rw [hq] at hq2
          exact (Option.some.inj hq2) ▸ hqx
        · intro y hy; cases hy
      · have hqp : q = p := by rw [hs] at hacc; exact Option.some.inj hacc
        subst hqp
        refine Or.inl ⟨hq, ?_⟩
        intro y hy
        rcases List.mem_cons.mp hy with hy | hy
        · subst hy; omega
        · exact hall y hy
    · -- p was found inside rest
      have hxp : x.2 < p.2 := by
        rcases step with ⟨_, hs⟩ | ⟨q, _, hqx, hs⟩ | ⟨q, _, hnlt, hs⟩
        · exact hlt x hs
        · exact hlt x hs
        · have := hlt q hs; omega
      refine Or.inr ⟨x :: pre, post, by rw [hsplit]; rfl, ?_, ?_, hpost⟩
      · intro q hq
        rcases step with ⟨hnone, _⟩ | ⟨q2, hq2, hqx2, hs2⟩ | ⟨q2, hq2, hnlt2, hs2⟩
        · rw [hnone] at hq; cases hq
        · rw [hq] at hq2
          have := hlt x hs2
          exact (Option.some.inj hq2) ▸ (by omega)
        · rw [hq] at hq2
          exact (Option.some.inj hq2) ▸ hlt q2 hs2
      · intro y hy
        rcases List.mem_cons.mp hy with hy | hy
        · subst hy; exact hxp
        · exact hpre y hy

/-- Appending to the counter keeps existing keys and appends unseen ones. -/
theorem countAdd_keys : ∀ (c : List (Nat × Nat)) (w : Nat),
    (countAdd c w).map Prod.fst =
      if w ∈ c.map Prod.fst then c.map Prod.fst else c.map Prod.fst ++ [w]
  | [], w => by simp [countAdd]
  | (k, n) :: rest, w => by
    by_cases h : k = w
    · subst h; simp [countAdd]
    · have hne : ¬w = k := fun hh => h hh.symm
      simp only [countAdd, if_neg h, List.map_cons, countAdd_keys rest w, List.mem_cons]
      by_cases h2 : w ∈ rest.map Prod.fst <;> simp [h2, hne]

theorem foldl_countAdd_keys_nodup (ws : List Nat) :
    ∀ acc : List (Nat × Nat), (acc.map Prod.fst).Nodup →
      ((ws.foldl countAdd acc).map Prod.fst).Nodup := by
  induction ws with
  | nil => intro acc h; exact h
  | cons w rest ih =>
    intro acc h
    simp only [List.foldl_cons]
    apply ih
    rw [countAdd_keys]
    by_cases hm : w ∈ acc.map Prod.fst
    · simp [hm, h]
    · simp only [hm, if_false]
      have hd : List.Disjoint (acc.map Prod.fst) [w] := by
        intro a ha haw
        rw [List.mem_singleton] at haw
        subst haw
        exact hm ha
      exact List.Nodup.append h (List.nodup_singleton w) hd

theorem foldl_countAdd_mem (ws : List Nat) :
    ∀ (acc : List (Nat × Nat)) (w : Nat),
      w ∈ (ws.foldl countAdd acc).map Prod.fst ↔ w ∈ acc.map Prod.fst ∨ w ∈ ws := by
  induction ws with
  | nil => intro acc w; simp
  | cons x rest ih =>
    intro acc w
    simp only [List.foldl_cons, ih, countAdd_keys]
    by_cases hm : x ∈ acc.map Prod.fst
    · simp only [hm, if_true, List.mem_cons]
      constructor
      · rintro (h | h)
        · exact Or.inl h
        · exact Or.inr (Or.inr h)
      · rintro (h | h | h)
        · exact Or.inl h
        · exact Or.inl (h ▸ hm)
        · exact Or.inr h
    · simp only [hm, if_false, List.mem_append, List.mem_singleton, List.mem_cons]
      tauto

end Catalog

namespace Catalog

theorem isDigit_not_isAlpha {c : Char} (h : c.isDigit = true) : c.isAlpha = false := by
  simp only [Char.isDigit, Char.isAlpha, Char.isUpper, Char.isLower, Bool.and_eq_true,
    decide_eq_true_eq, Bool.or_eq_false_iff, Bool.and_eq_false_iff, decide_eq_false_iff_not,
    UInt32.le_def, BitVec.le_def, UInt32.not_le, UInt32.lt_def, BitVec.lt_def,
    show ((48 : UInt32).toBitVec).toNat = 48 from rfl,
    show ((57 : UInt32).toBitVec).toNat = 57 from rfl,
    show ((65 : UInt32).toBitVec).toNat = 65 from rfl,
    show ((90 : UInt32).toBitVec).toNat = 90 from rfl,
    show ((97 : UInt32).toBitVec).toNat = 97 from rfl,
    show ((122 : UInt32).toBitVec).toNat = 122 from rfl] at h ⊢
  omega

/-- The accepted shape is equivalent to: the leading alphabetic run is
non-empty and is followed immediately by a digit. -/
theorem catalogShape_iff (c : List Char) :
    catalogShape c ↔
      c.takeWhile Char.isAlpha ≠ [] ∧
        ((c.dropWhile Char.isAlpha).takeWhile Char.isDigit ≠ []) := by
  constructor
  · rintro ⟨a, d, r, rfl, ha, hd, hal, hdig⟩
    obtain ⟨ah, a2, rfl⟩ := List.exists_cons_of_ne_nil ha
    obtain ⟨dh, d2, rfl⟩ := List.exists_cons_of_ne_nil hd
    have hdrop : ((ah :: a2) ++ (dh :: d2) ++ r).dropWhile Char.isAlpha = dh :: (d2 ++ r) := by
      rw [List.append_assoc, List.dropWhile_append_of_pos hal, List.cons_append,
        List.dropWhile_cons_of_neg
          (by simp [isDigit_not_isAlpha (hdig dh (by simp))])]
    constructor
    · rw [List.cons_append, List.cons_append,
        List.takeWhile_cons_of_pos (hal ah (by simp))]
      simp
    · rw [hdrop, List.takeWhile_cons_of_pos (hdig dh (by simp))]
      simp
  · rintro ⟨h1, h2⟩
    refine ⟨c.takeWhile Char.isAlpha,
      (c.dropWhile Char.isAlpha).takeWhile Char.isDigit,
      (c.dropWhile Char.isAlpha).dropWhile Char.isDigit, ?_, h1, h2, ?_, ?_⟩
    · have e1 : c = c.takeWhile Char.isAlpha ++ c.dropWhile Char.isAlpha :=
        (List.takeWhile_append_dropWhile Char.isAlpha c).symm
      have e2 : c.dropWhile Char.isAlpha =
          (c.dropWhile Char.isAlpha).takeWhile Char.isDigit ++
            (c.dropWhile Char.isAlpha).dropWhile Char.isDigit :=
        (List.takeWhile_append_dropWhile Char.isDigit _).symm
      calc c = c.takeWhile Char.isAlpha ++ c.dropWhile Char.isAlpha := e1
        _ = c.takeWhile Char.isAlpha ++
              ((c.dropWhile Char.isAlpha).takeWhile Char.isDigit ++
                (c.dropWhile Char.isAlpha).dropWhile Char.isDigit) := by rw [← e2]
        _ = _ := by rw [List.append_assoc]
    · intro x hx; exact List.mem_takeWhile_imp hx
    · intro x hx; exact List.mem_takeWhile_imp hx

end Catalog

namespace Db

open Normalizer

theorem learnArtistAlias_title (db : DB) (l : Listen) (tid : Nat) :
    (learnArtistAlias db l tid).title_aliases = db.title_aliases := by
  unfold learnArtistAlias
  cases htr : db.tracks.find? fun t => t.id = tid with
  | none => cases l.artist_name_raw <;> rfl
  | some tr =>
    cases l.artist_name_raw with
    | none => rfl
    | some a =>
      by_cases h0 : a = []
      · simp [h0]
      · by_cases h1 : (db.artist_aliases.any fun r => r.alias_normalized = pyLowerStr a) <;>
          simp [h0, h1]

theorem learnArtistAlias_listens (db : DB) (l : Listen) (tid : Nat) :
    (learnArtistAlias db l tid).listens = db.listens := by
  unfold learnArtistAlias
  cases htr : db.tracks.find? fun t => t.id = tid with
  | none => cases l.artist_name_raw <;> rfl
  | some tr =>
    cases l.artist_name_raw with
    | none => rfl
    | some a =>
      by_cases h0 : a = []
      · simp [h0]
      · by_cases h1 : (db.artist_aliases.any fun r => r.alias_normalized = pyLowerStr a) <;>
          simp [h0, h1]

theorem learnArtistAlias_tracks (db : DB) (l : Listen) (tid : Nat) :
    (learnArtistAlias db l tid).tracks = db.tracks := by
  unfold learnArtistAlias
  cases htr : db.tracks.find? fun t => t.id = tid with
  | none => cases l.artist_name_raw <;> rfl
  | some tr =>
    cases l.artist_name_raw with
    | none => rfl
    | some a =>
      by_cases h0 : a = []
      · simp [h0]
      · by_cases h1 : (db.artist_aliases.any fun r => r.alias_normalized = pyLowerStr a) <;>
          simp [h0, h1]

theorem learnTitleAlias_artist (db : DB) (l : Listen) (tid : Nat) :
    (learnTitleAlias db l tid).artist_aliases = db.artist_aliases := by
  unfold learnTitleAlias
  cases ht : l.track_title_raw with
  | none => rfl
  | some t =>
    by_cases h0 : t = []
    · simp [h0]
    · by_cases h1 : (db.title_aliases.any fun r => r.alias_normalized = pyLowerStr t) <;>
        simp [h0, h1]

theorem learnTitleAlias_tracks (db : DB) (l : Listen) (tid : Nat) :
    (learnTitleAlias db l tid).tracks = db.tracks := by
  unfold learnTitleAlias
  cases ht : l.track_title_raw with
  | none => rfl
  | some t =>
    by_cases h0 : t = []
    · simp [h0]
    · by_cases h1 : (db.title_aliases.any fun r => r.alias_normalized = pyLowerStr t) <;>
        simp [h0, h1]

theorem learnTitleAlias_listens (db : DB) (l : Listen) (tid : Nat) :
    (learnTitleAlias db l tid).listens = db.listens := by
  unfold learnTitleAlias
  cases ht : l.track_title_raw with
  | none => rfl
  | some t =>
    by_cases h0 : t = []
    · simp [h0]
    · by_cases h1 : (db.title_aliases.any fun r => r.alias_normalized = pyLowerStr t) <;>
        simp [h0, h1]

/-- What the artist half does to the artist alias table: nothing, or it
appends one row keyed by the lower-cased raw artist when the track row
exists, the raw string is truthy, and the key is globally absent. -/
theorem learnArtistAlias_spec (db : DB) (l : Listen) (tid : Nat) :
    (learnArtistAlias db l tid).artist_aliases = db.artist_aliases ∨
    ∃ tr a, (db.tracks.find? fun t => t.id = tid) = some tr ∧
      l.artist_name_raw = some a ∧ a ≠ [] ∧
      (db.artist_aliases.any fun r => r.alias_normalized = pyLowerStr a) = false ∧
      (learnArtistAlias db l tid).artist_aliases =
        db.artist_aliases ++ [⟨tr.primary_artist_id, pyLowerStr a⟩] := by
  unfold learnArtistAlias
  cases htr : db.tracks.find? fun t => t.id = tid with
  | none => cases l.artist_name_raw <;> exact Or.inl rfl
  | some tr =>
    cases ha : l.artist_name_raw with
    | none => exact Or.inl rfl
    | some a =>
      by_cases h0 : a = []
      · simp [h0]
      · by_cases h1 : (db.artist_aliases.any fun r => r.alias_normalized = pyLowerStr a)
        · simp [h0, h1]
        · right
          exact ⟨tr, a, rfl, rfl, h0, Bool.not_eq_true _ ▸ h1, by
            simp [h0, h1]⟩

/-- What the title half does to the title alias table. -/
theorem learnTitleAlias_spec (db : DB) (l : Listen) (tid : Nat) :
    (learnTitleAlias db l tid).title_aliases = db.title_aliases ∨
    ∃ t, l.track_title_raw = some t ∧ t ≠ [] ∧
      (db.title_aliases.any fun r => r.alias_normalized = pyLowerStr t) = false ∧
      (learnTitleAlias db l tid).title_aliases =
        db.title_aliases ++ [⟨tid, pyLowerStr t⟩] := by
  unfold learnTitleAlias
  cases ht : l.track_title_raw with
  | none => exact Or.inl rfl
  | some t =>
    by_cases h0 : t = []
    · simp [h0]
    · by_cases h1 : (db.title_aliases.any fun r => r.alias_normalized = pyLowerStr t)
      · simp [h0, h1]
      · right
        exact ⟨t, rfl, h0, Bool.not_eq_true _ ▸ h1, by simp [h0, h1]⟩

theorem link_listen_rows (db : DB) (lid tid : Nat) (st : List Char) (cf : Int) :
    ∀ row ∈ (link_listen db lid tid st cf).listens, row.id = lid →
      row.enrich_status = st ∧ row.match_confidence = some cf ∧
        row.track_id = some tid := by
  intro row hrow hid
  obtain ⟨x, hx, rfl⟩ := List.mem_map.mp hrow
  by_cases hxid : x.id = lid
  · simp [hxid]
  · simp only [if_neg hxid] at hid ⊢
    exact absurd hid hxid

theorem find?_listens_link (db : DB) (lid tid : Nat) (st : List Char) (cf : Int)
    (lid2 : Nat) :
    (link_listen db lid tid st cf).listens.find? (fun x => x.id = lid2) =
      (db.listens.find? fun x => x.id = lid2).map fun l =>
        if l.id = lid then
          { l with track_id := some tid, enrich_status := st,
                   match_confidence := some cf }
        else l := by
  show (db.listens.map _).find? _ = _
  rw [List.find?_map]
  have hp : ((fun x : Listen => decide (x.id = lid2)) ∘ fun l : Listen =>
      if l.id = lid then
        { l with track_id := some tid, enrich_status := st,
                 match_confidence := some cf }
      else l) = fun x : Listen => decide (x.id = lid2) := by
    funext x
    by_cases h : x.id = lid <;> simp [h]
  rw [hp]

theorem learnArtistAlias_adds (db : DB) (lx : Listen) (tid : Nat) (tr : Track)
    (a : List Char) (h1 : (db.tracks.find? fun x => x.id = tid) = some tr)
    (h2 : lx.artist_name_raw = some a) (h3 : a ≠ [])
    (h4 : (db.artist_aliases.any fun r =>
      r.alias_normalized = Normalizer.pyLowerStr a) = false) :
    learnArtistAlias db lx tid =
      { db with
        artist_aliases :=
          db.artist_aliases ++ [⟨tr.primary_artist_id, Normalizer.pyLowerStr a⟩] } := by
  unfold learnArtistAlias
  simp [h1, h2, h3, h4]

theorem learnArtistAlias_skip (db : DB) (lx : Listen) (tid : Nat) (a : List Char)
    (h2 : lx.artist_name_raw = some a)
    (h4 : (db.artist_aliases.any fun r =>
      r.alias_normalized = Normalizer.pyLowerStr a) = true) :
    learnArtistAlias db lx tid = db := by
  unfold learnArtistAlias
  cases h1 : db.tracks.find? fun x => x.id = tid with
  | none => simp [h2]
  | some tr =>
    by_cases h3 : a = [] <;> simp [h2, h3, h4]

theorem learnTitleAlias_adds (db : DB) (lx : Listen) (tid : Nat) (t : List Char)
    (h2 : lx.track_title_raw = some t) (h3 : t ≠ [])
    (h4 : (db.title_aliases.any fun r =>
      r.alias_normalized = Normalizer.pyLowerStr t) = false) :
    learnTitleAlias db lx tid =
      { db with
        title_aliases := db.title_aliases ++ [⟨tid, Normalizer.pyLowerStr t⟩] } := by
  unfold learnTitleAlias
  simp [h2, h3, h4]

theorem learnTitleAlias_skip (db : DB) (lx : Listen) (tid : Nat) (t : List Char)
    (h2 : lx.track_title_raw = some t)
    (h4 : (db.title_aliases.any fun r =>
      r.alias_normalized = Normalizer.pyLowerStr t) = true) :
    learnTitleAlias db lx tid = db := by
  unfold learnTitleAlias
  by_cases h3 : t = [] <;> simp [h2, h3, h4]

theorem candsOf_link_self (db : DB) (lid tid : Nat) (st : List Char) (cf : Int) :
    candsOf (link_listen db lid tid st cf) lid = [] := by
  simp only [candsOf, link_listen, List.filter_filter]
  apply List.filter_eq_nil_iff.mpr
  intro c _
  by_cases h : c.listen_id = lid <;> simp [h]

theorem candsOf_link_other (db : DB) (lid tid : Nat) (st : List Char) (cf : Int)
    (lid2 : Nat) (h : lid2 ≠ lid) :
    candsOf (link_listen db lid tid st cf) lid2 = candsOf db lid2 := by
  simp only [candsOf, link_listen, List.filter_filter]
  apply List.filter_congr
  intro c _
  by_cases hcl : c.listen_id = lid2
  · simp [hcl, h]
  · simp [hcl]

theorem candsOf_store_self (db : DB) (lid : Nat) (cands : List (Option Nat × Int)) :
    candsOf (store_candidates db lid cands).2 lid =
      (store_candidates db lid cands).1.map fun s =>
        { listen_id := lid, track_id := s.1, confidence := s.2 } := by
  simp only [candsOf, store_candidates, List.filter_append, List.filter_filter]
  rw [List.filter_eq_nil_iff.mpr, List.filter_eq_self.mpr]
  · simp
  · intro c hc
    obtain ⟨s, _, rfl⟩ := List.mem_map.mp hc
    simp
  · intro c _
    by_cases h : c.listen_id = lid <;> simp [h]

theorem candsOf_store_other (db : DB) (lid : Nat) (cands : List (Option Nat × Int))
    (lid2 : Nat) (h : lid2 ≠ lid) :
    candsOf (store_candidates db lid cands).2 lid2 = candsOf db lid2 := by
  simp only [candsOf, store_candidates, List.filter_append, List.filter_filter]
  rw [show (List.filter (fun c => decide (c.listen_id = lid2)) ((cands.filterMap fun c =>
      c.1.map fun tid => (tid, c.2)).map fun s =>
        ({ listen_id := lid, track_id := s.1, confidence := s.2 : CandidateRow}))) = [] from ?_,
    List.append_nil]
  · apply List.filter_congr
    intro c _
    by_cases hcl : c.listen_id = lid2
    · simp [hcl, h]
    · simp [hcl]
  · apply List.filter_eq_nil_iff.mpr
    intro c hc
    obtain ⟨s, _, rfl⟩ := List.mem_map.mp hc
    simp
    exact fun hh => absurd hh.symm h

theorem candsOf_mark (db : DB) (lid : Nat) (st : List Char) (cf : Option Int)
    (lid2 : Nat) : candsOf (mark_listen_status db lid st cf) lid2 = candsOf db lid2 :=
  rfl

theorem mark_listen_rows (db : DB) (lid : Nat) (st : List Char) (cf : Option Int) :
    ∀ row ∈ (mark_listen_status db lid st cf).listens, row.id = lid →
      row.enrich_status = st ∧ row.match_confidence = cf := by
  intro row hrow hid
  obtain ⟨x, hx, rfl⟩ := List.mem_map.mp hrow
  by_cases hxid : x.id = lid
  · simp [hxid]
  · simp only [if_neg hxid] at hid ⊢
    exact absurd hid hxid

theorem link_listen_rows_other (db : DB) (lid tid : Nat) (st : List Char) (cf : Int)
    (lid2 : Nat) (h : lid2 ≠ lid) :
    ∀ row, (row ∈ (link_listen db lid tid st cf).listens ∧ row.id = lid2) ↔
      (row ∈ db.listens ∧ row.id = lid2) := by
  intro row
  constructor
  · rintro ⟨hm, hid⟩
    obtain ⟨x, hx, rfl⟩ := List.mem_map.mp hm
    by_cases hxl : x.id = lid
    · rw [if_pos hxl] at hid
      simp only at hid
      exact absurd (hid.symm.trans hxl) h
    · rw [if_neg hxl] at hid ⊢
      exact ⟨hx, hid⟩
  · rintro ⟨hm, hid⟩
    refine ⟨List.mem_map.mpr ⟨row, hm, ?_⟩, hid⟩
    rw [if_neg]
    rw [hid]
    exact h

theorem mark_listen_rows_other (db : DB) (lid : Nat) (st : List Char)
    (cf : Option Int) (lid2 : Nat) (h : lid2 ≠ lid) :
    ∀ row, (row ∈ (mark_listen_status db lid st cf).listens ∧ row.id = lid2) ↔
      (row ∈ db.listens ∧ row.id = lid2) := by
  intro row
  constructor
  · rintro ⟨hm, hid⟩
    obtain ⟨x, hx, rfl⟩ := List.mem_map.mp hm
    by_cases hxl : x.id = lid
    · rw [if_pos hxl] at hid
      simp only at hid
      exact absurd (hid.symm.trans hxl) h
    · rw [if_neg hxl] at hid ⊢
      exact ⟨hx, hid⟩
  · rintro ⟨hm, hid⟩
    refine ⟨List.mem_map.mpr ⟨row, hm, ?_⟩, hid⟩
    rw [if_neg]
    rw [hid]
    exact h

theorem store_payload_of_map (db : DB) (lid : Nat) (cands : List (Nat × Int)) :
    (store_candidates db lid (cands.map fun c => ((some c.1 : Option Nat), c.2))).1 =
      cands := by
  simp only [store_candidates, List.filterMap_map]
  have : ((fun c : Option Nat × Int => c.1.map fun tid => (tid, c.2)) ∘
      fun c : Nat × Int => ((some c.1 : Option Nat), c.2)) = some := by
    funext c
    simp
  rw [this, List.filterMap_some]

end Db

namespace Services

open Db

theorem foldl_max_eq_or_mem : ∀ (xs : List Int) (init : Int),
    xs.foldl max init = init ∨ xs.foldl max init ∈ xs
  | [], _ => Or.inl rfl
  | x :: rest, init => by
    rcases foldl_max_eq_or_mem rest (max init x) with h | h
    · rcases max_choice init x with hm | hm
      · exact Or.inl (by rw [List.foldl_cons, h, hm])
      · exact Or.inr (by rw [List.foldl_cons, h, hm]; exact List.mem_cons_self x rest)
    · exact Or.inr (List.mem_cons_of_mem x (by rw [List.foldl_cons]; exact h))

theorem le_foldl_max : ∀ (xs : List Int) (init : Int), init ≤ xs.foldl max init
  | [], _ => le_refl _
  | x :: rest, init =>
    le_trans (le_max_left init x) (le_foldl_max rest (max init x))

theorem mem_le_foldl_max : ∀ (xs : List Int) (init x : Int), x ∈ xs →
    x ≤ xs.foldl max init
  | [], _, x, h => absurd h (List.not_mem_nil x)
  | y :: rest, init, x, h => by
    rcases List.mem_cons.mp h with rfl | h
    · exact le_trans (le_max_right init x) (le_foldl_max rest _)
    · exact mem_le_foldl_max rest _ x h

theorem deterministic_match_eq (db1 db2 : DB) (h : db1.tracks = db2.tracks)
    (a t al : Option (List Char)) (d : Option Int) :
    deterministic_match db1 a t al d = deterministic_match db2 a t al d := by
  simp [deterministic_match, Db.find_track_by_uid, h]

theorem find_candidates_eq (db1 db2 : DB) (ht : db1.tracks = db2.tracks)
    (ha : db1.artists = db2.artists) (a t : Option (List Char)) (d : Option Int) :
    find_candidates db1 a t d = find_candidates db2 a t d := by
  simp only [find_candidates, Db.search_tracks_by_metadata, Db.artistNameOf, ht, ha]

theorem enrichStep_library (cnt : Counts) (dbc : DB) (l : Listen) :
    (enrichStep (cnt, dbc) l).2.tracks = dbc.tracks ∧
    (enrichStep (cnt, dbc) l).2.artists = dbc.artists := by
  unfold enrichStep
  dsimp only
  split
  · exact ⟨rfl, rfl⟩
  · split <;> exact ⟨rfl, rfl⟩

theorem enrichStep_counts (cnt : Counts) (dbc : DB) (l : Listen) :
    (enrichStep (cnt, dbc) l).1.processed = cnt.processed + 1 ∧
    (enrichStep (cnt, dbc) l).1.matched + (enrichStep (cnt, dbc) l).1.ambiguous +
        (enrichStep (cnt, dbc) l).1.unmatched =
      cnt.matched + cnt.ambiguous + cnt.unmatched + 1 := by
  unfold enrichStep
  dsimp only
  split
  · exact ⟨rfl, by dsimp only; omega⟩
  · split <;> exact ⟨rfl, by dsimp only; omega⟩

theorem enrichStep_frame (cnt : Counts) (dbc : DB) (l : Listen) (lid2 : Nat)
    (h : lid2 ≠ l.id) :
    (∀ row, (row ∈ (enrichStep (cnt, dbc) l).2.listens ∧ row.id = lid2) ↔
      (row ∈ dbc.listens ∧ row.id = lid2)) ∧
    Db.candsOf (enrichStep (cnt, dbc) l).2 lid2 = Db.candsOf dbc lid2 := by
  unfold enrichStep
  dsimp only
  split
  · exact ⟨link_listen_rows_other dbc l.id _ _ _ lid2 h,
      candsOf_link_other dbc l.id _ _ _ lid2 h⟩
  · split
    · constructor
      · intro row
        exact (mark_listen_rows_other _ l.id _ _ lid2 h row).trans (Iff.of_eq rfl)
      · rw [candsOf_mark]
        exact candsOf_store_other dbc l.id _ lid2 h
    · constructor
      · intro row
        exact (mark_listen_rows_other _ l.id _ _ lid2 h row).trans (Iff.of_eq rfl)
      · rw [candsOf_mark]
        exact candsOf_store_other dbc l.id _ lid2 h

/-- The own-listen effect of one loop iteration, matching the claim's
specification when lookups are read against any state with the same
library tables. -/
theorem enrichStep_outcome (db0 : DB) (cnt : Counts) (dbc : DB) (l : Listen)
    (htr : dbc.tracks = db0.tracks) (har : dbc.artists = db0.artists) :
    listenOutcome db0 (enrichStep (cnt, dbc) l).2 l := by
  have hdm := deterministic_match_eq dbc db0 htr l.artist_name_raw
    l.track_title_raw l.album_title_raw l.duration_secs
  have hfc := find_candidates_eq dbc db0 htr har l.artist_name_raw
    l.track_title_raw l.duration_secs
  unfold listenOutcome enrichStep
  dsimp only
  rw [hdm, hfc]
  by_cases hhit : isMatchHit (deterministic_match db0 l.artist_name_raw
    l.track_title_raw l.album_title_raw l.duration_secs)
  · rw [if_pos hhit, if_pos hhit]
    cases hft : Db.find_track_by_uid db0 (Uid.make_track_uid l.artist_name_raw
        l.track_title_raw l.album_title_raw l.duration_secs) with
    | none =>
      rw [deterministic_match, hft] at hhit
      exact absurd hhit (by decide)
    | some tr =>
      rw [deterministic_match, hft] at hhit ⊢
      constructor
      · intro row hrow hid
        obtain ⟨hst, hcf, hti⟩ :=
          Db.link_listen_rows dbc l.id _ _ _ row hrow hid
        exact ⟨hst, by rw [hcf]; rfl, by rw [hti]; rfl⟩
      · exact Db.candsOf_link_self dbc l.id _ _ _
  · rw [if_neg hhit, if_neg hhit]
    rw [Db.store_payload_of_map]
    cases hcs : find_candidates db0 l.artist_name_raw l.track_title_raw
      l.duration_secs with
    | nil =>
      rw [if_pos rfl]
      exact fun row hrow hid => Db.mark_listen_rows _ l.id _ _ row hrow hid
    | cons s rest =>
      rw [if_neg (List.cons_ne_nil s rest)]
      dsimp only
      constructor
      · rw [Db.candsOf_mark, Db.candsOf_store_self, Db.store_payload_of_map]
      · refine ⟨(rest.map Prod.snd).foldl max s.2, ?_, ?_, ?_⟩
        · intro row hrow hid
          exact Db.mark_listen_rows _ l.id _ _ row hrow hid
        · rcases foldl_max_eq_or_mem (rest.map Prod.snd) s.2 with h | h
          · rw [h]; exact List.mem_map.mpr ⟨s, List.mem_cons_self s rest, rfl⟩
          · rw [List.map_cons]
            exact List.mem_cons_of_mem _ h
        · intro x hx
          rw [List.map_cons] at hx
          rcases List.mem_cons.mp hx with rfl | hx
          · exact le_foldl_max _ _
          · exact mem_le_foldl_max _ _ _ hx

/-- The claim's per-listen outcome only inspects the listen's rows and
candidate set, so it survives state changes that leave those untouched. -/
theorem listenOutcome_mono (db0 dbF dbF2 : DB) (l : Listen)
    (hrows : ∀ row, (row ∈ dbF2.listens ∧ row.id = l.id) ↔
      (row ∈ dbF.listens ∧ row.id = l.id))
    (hcands : Db.candsOf dbF2 l.id = Db.candsOf dbF l.id)
    (h : listenOutcome db0 dbF l) : listenOutcome db0 dbF2 l := by
  unfold listenOutcome at h ⊢
  dsimp only at h ⊢
  by_cases hhit : isMatchHit (deterministic_match db0 l.artist_name_raw
    l.track_title_raw l.album_title_raw l.duration_secs)
  · rw [if_pos hhit] at h ⊢
    exact ⟨fun row hm hid => h.1 row ((hrows row).mp ⟨hm, hid⟩).1 hid,
      hcands.trans h.2⟩
  · rw [if_neg hhit] at h ⊢
    by_cases hcs : find_candidates db0 l.artist_name_raw l.track_title_raw
      l.duration_secs = []
    · rw [if_pos hcs] at h ⊢
      exact fun row hm hid => h row ((hrows row).mp ⟨hm, hid⟩).1 hid
    · rw [if_neg hcs] at h ⊢
      obtain ⟨hc, best, hrows2, hmem, hub⟩ := h
      exact ⟨hcands.trans hc, best,
        fun row hm hid => hrows2 row ((hrows row).mp ⟨hm, hid⟩).1 hid, hmem, hub⟩

/-- Folding the loop over listens with other ids leaves a listen's rows and
candidates untouched. -/
theorem fold_frame (ls : List Listen) : ∀ (cnt : Counts) (dbc : DB) (lid2 : Nat),
    (∀ x ∈ ls, x.id ≠ lid2) →
    (∀ row, (row ∈ (ls.foldl enrichStep (cnt, dbc)).2.listens ∧ row.id = lid2) ↔
      (row ∈ dbc.listens ∧ row.id = lid2)) ∧
    Db.candsOf (ls.foldl enrichStep (cnt, dbc)).2 lid2 = Db.candsOf dbc lid2 := by
  induction ls with
  | nil => exact fun cnt dbc lid2 _ => ⟨fun row => Iff.rfl, rfl⟩
  | cons x rest ih =>
    intro cnt dbc lid2 hne
    rw [List.foldl_cons, ← Prod.mk.eta (p := enrichStep (cnt, dbc) x)]
    obtain ⟨hr1, hc1⟩ := enrichStep_frame cnt dbc x lid2
      (fun hh => hne x (List.mem_cons_self x rest) hh.symm)
    obtain ⟨hr2, hc2⟩ := ih (enrichStep (cnt, dbc) x).1 (enrichStep (cnt, dbc) x).2
      lid2 (fun y hy => hne y (List.mem_cons_of_mem x hy))
    exact ⟨fun row => (hr2 row).trans (hr1 row), hc2.trans hc1⟩

/-- The loop invariant of `enrich_pending`: counter arithmetic and the
claim's per-listen outcome. -/
theorem fold_main (db0 : DB) (ls : List Listen) : ∀ (cnt : Counts) (dbc : DB),
    dbc.tracks = db0.tracks → dbc.artists = db0.artists →
    (ls.map Listen.id).Nodup →
    (ls.foldl enrichStep (cnt, dbc)).1.processed = cnt.processed + ls.length ∧
    (ls.foldl enrichStep (cnt, dbc)).1.matched +
        (ls.foldl enrichStep (cnt, dbc)).1.ambiguous +
        (ls.foldl enrichStep (cnt, dbc)).1.unmatched =
      cnt.matched + cnt.ambiguous + cnt.unmatched + ls.length ∧
    ∀ l ∈ ls, listenOutcome db0 (ls.foldl enrichStep (cnt, dbc)).2 l := by
  induction ls with
  | nil => intro cnt dbc _ _ _; exact ⟨rfl, rfl, by simp⟩
  | cons x rest ih =>
    intro cnt dbc htr har hnd
    rw [List.map_cons, List.nodup_cons] at hnd
    obtain ⟨hxnot, hndr⟩ := hnd
    rw [List.foldl_cons, ← Prod.mk.eta (p := enrichStep (cnt, dbc) x)]
    obtain ⟨hlib1, hlib2⟩ := enrichStep_library cnt dbc x
    obtain ⟨hcp, hcs⟩ := enrichStep_counts cnt dbc x
    obtain ⟨hp, hsum, hout⟩ := ih (enrichStep (cnt, dbc) x).1
      (enrichStep (cnt, dbc) x).2 (hlib1.trans htr) (hlib2.trans har) hndr
    refine ⟨by rw [hp, hcp]; simp [Nat.add_assoc, Nat.add_comm 1],
      by rw [hsum, hcs]; simp [Nat.add_assoc, Nat.add_comm 1], ?_⟩
    intro l hl
    rcases List.mem_cons.mp hl with rfl | hl
    · have hown := enrichStep_outcome db0 cnt dbc l htr har
      obtain ⟨hr, hc⟩ := fold_frame rest (enrichStep (cnt, dbc) l).1
        (enrichStep (cnt, dbc) l).2 l.id
        (fun y hy hc => hxnot (hc ▸ List.mem_map.mpr ⟨y, hy, rfl⟩))
      exact listenOutcome_mono db0 (enrichStep (cnt, dbc) l).2 _ l hr hc hown
    · exact hout l hl

theorem fetch_pending_nodup (db : DB) (since : Option Nat) (limit : Nat)
    (h : (db.listens.map Listen.id).Nodup) :
    ((Db.fetch_pending_listens db since limit).map Listen.id).Nodup := by
  unfold Db.fetch_pending_listens
  dsimp only
  have hstep : ∀ bounded : List Listen, bounded.Sublist db.listens →
      (((List.insertionSort (fun a b => a.listened_at ≤ b.listened_at)
        bounded).take limit).map Listen.id).Nodup := by
    intro bounded hsub
    have hb : (bounded.map Listen.id).Nodup :=
      List.Nodup.sublist (List.Sublist.map Listen.id hsub) h
    have hperm : List.Perm
        ((List.insertionSort (fun a b => a.listened_at ≤ b.listened_at)
          bounded).map Listen.id) (bounded.map Listen.id) :=
      (List.perm_insertionSort _ bounded).map Listen.id
    have hs : ((List.insertionSort (fun a b => a.listened_at ≤ b.listened_at)
        bounded).map Listen.id).Nodup := hperm.nodup_iff.mpr hb
    exact List.Nodup.sublist
      (List.Sublist.map Listen.id (List.take_sublist limit _)) hs
  cases since with
  | none => exact hstep _ (List.filter_sublist db.listens)
  | some s =>
    exact hstep _ ((List.filter_sublist _).trans (List.filter_sublist db.listens))

/-- Every confidence produced by the fuzzy search is 50, or 80 with a
supplied duration. -/
theorem search_scores (db : DB) (a t : Option (List Char)) (d : Option Int)
    (lim : Nat) (p : Nat × Int) (hp : p ∈ Db.search_tracks_by_metadata db a t d lim) :
    p.2 = 50 ∨ (p.2 = 80 ∧ d ≠ none) := by
  unfold Db.search_tracks_by_metadata at hp
  dsimp only at hp
  obtain ⟨tr, _, rfl⟩ := List.mem_map.mp hp
  dsimp only
  unfold Db.rowConfidence
  cases d with
  | none => exact Or.inl rfl
  | some dd =>
    cases tr.duration_secs with
    | none => exact Or.inl rfl
    | some td =>
      by_cases habs : (td - dd).natAbs ≤ 2
      · exact Or.inr ⟨by simp [habs], by simp⟩
      · exact Or.inl (by simp [habs])

end Services

namespace Normalizer

theorem lookup_mem {α β : Type} [BEq α] [LawfulBEq α] {l : List (α × β)} {k : α}
    {v : β} (h : l.lookup k = some v) : (k, v) ∈ l := by
  obtain ⟨l1, l2, rfl, -⟩ := List.lookup_eq_some_iff.mp h
  exact List.mem_append.mpr (Or.inr (List.mem_cons_self _ _))

theorem lowerTable_outputs : ∀ p ∈ lowerTable, lowerTable.lookup p.2 = none := by
  decide

theorem unidecTable_outputs : ∀ p ∈ unidecTable, ∀ d ∈ p.2,
    unidecChar d = [d] := by decide

theorem pyLower_idem (c : Char) : pyLower (pyLower c) = pyLower c := by
  unfold pyLower
  cases hl : lowerTable.lookup c with
  | none => simp [hl]
  | some v =>
    simp only [hl, Option.getD_some]
    rw [lowerTable_outputs (c, v) (lookup_mem hl)]
    rfl

theorem unidecChar_good (c : Char) :
    ∀ d ∈ unidecChar c, unidecChar d = [d] := by
  intro d hd
  unfold unidecChar at hd
  cases hu : unidecTable.lookup c with
  | none =>
    rw [hu] at hd
    simp only [Option.getD_none, List.mem_singleton] at hd
    subst hd
    unfold unidecChar
    rw [hu]
    rfl
  | some out =>
    rw [hu] at hd
    exact unidecTable_outputs (c, out) (lookup_mem hu) d hd

theorem pyLowerStr_mem : ∀ {s : List Char} {c : Char}, c ∈ pyLowerStr s →
    ∃ d ∈ s, c = pyLower d := by
  intro s
  induction s with
  | nil => intro c h; cases h
  | cons x r ih =>
    intro c h
    rcases List.mem_cons.mp h with rfl | h
    · exact ⟨x, List.mem_cons_self x r, rfl⟩
    · obtain ⟨d, hd, hc⟩ := ih h
      exact ⟨d, List.mem_cons_of_mem x hd, hc⟩

theorem unidecStr_mem : ∀ {s : List Char} {c : Char}, c ∈ unidecStr s →
    ∃ d ∈ s, c ∈ unidecChar d := by
  intro s
  induction s with
  | nil => intro c h; cases h
  | cons x r ih =>
    intro c h
    rcases List.mem_append.mp h with h | h
    · exact ⟨x, List.mem_cons_self x r, h⟩
    · obtain ⟨d, hd, hc⟩ := ih h
      exact ⟨d, List.mem_cons_of_mem x hd, hc⟩

theorem punctGo_mem : ∀ (b : Bool) (s : List Char) (c : Char), c ∈ punctGo b s →
    c = ' ' ∨ (c ∈ s ∧ isPunct c = false)
  | _, [], _, h => absurd h (List.not_mem_nil _)
  | b, x :: r, c, h => by
    unfold punctGo at h
    by_cases hx : isPunct x
    · rw [if_pos hx] at h
      have h2 : c = ' ' ∨ c ∈ punctGo true r := by
        by_cases hb : b = true
        · rw [if_pos hb] at h
          exact Or.inr h
        · rw [if_neg hb] at h
          rcases List.mem_cons.mp h with rfl | h
          · exact Or.inl rfl
          · exact Or.inr h
      rcases h2 with rfl | h2
      · exact Or.inl rfl
      · rcases punctGo_mem true r c h2 with h3 | ⟨h3, h4⟩
        · exact Or.inl h3
        · exact Or.inr ⟨List.mem_cons_of_mem x h3, h4⟩
    · rw [if_neg hx] at h
      rcases List.mem_cons.mp h with rfl | h
      · exact Or.inr ⟨List.mem_cons_self c r, Bool.not_eq_true _ ▸ hx⟩
      · rcases punctGo_mem false r c h with h2 | ⟨h2, h3⟩
        · exact Or.inl h2
        · exact Or.inr ⟨List.mem_cons_of_mem x h2, h3⟩

theorem wsGo_mem : ∀ (b : Bool) (s : List Char) (c : Char), c ∈ wsGo b s →
    c = ' ' ∨ (c ∈ s ∧ pySpace c = false)
  | _, [], _, h => absurd h (List.not_mem_nil _)
  | b, x :: r, c, h => by
    unfold wsGo at h
    by_cases hx : pySpace x
    · rw [if_pos hx] at h
      have h2 : c = ' ' ∨ c ∈ wsGo true r := by
        by_cases hb : b = true
        · rw [if_pos hb] at h
          exact Or.inr h
        · rw [if_neg hb] at h
          rcases List.mem_cons.mp h with rfl | h
          · exact Or.inl rfl
          · exact Or.inr h
      rcases h2 with rfl | h2
      · exact Or.inl rfl
      · rcases wsGo_mem true r c h2 with h3 | ⟨h3, h4⟩
        · exact Or.inl h3
        · exact Or.inr ⟨List.mem_cons_of_mem x h3, h4⟩
    · rw [if_neg hx] at h
      rcases List.mem_cons.mp h with rfl | h
      · exact Or.inr ⟨List.mem_cons_self c r, Bool.not_eq_true _ ▸ hx⟩
      · rcases wsGo_mem false r c h with h2 | ⟨h2, h3⟩
        · exact Or.inl h2
        · exact Or.inr ⟨List.mem_cons_of_mem x h2, h3⟩

theorem featGo_mem : ∀ (fuel : Nat) (b : Bool) (s : List Char) (c : Char),
    c ∈ featGo fuel b s → c ∈ s ∨ c ∈ ['f', 'e', 'a', 't']
  | 0, _, s, c, h => Or.inl h
  | _ + 1, _, [], _, h => absurd h (List.not_mem_nil _)
  | fuel + 1, b, x :: r, c, h => by
    unfold featGo at h
    by_cases hb : b
    · rw [if_pos hb] at h
      rcases List.mem_cons.mp h with rfl | h
      · exact Or.inl (List.mem_cons_self c r)
      · rcases featGo_mem fuel (pyWord x) r c h with h2 | h2
        · exact Or.inl (List.mem_cons_of_mem x h2)
        · exact Or.inr h2
    · rw [if_neg hb] at h
      cases hm : featMatch (x :: r) with
      | none =>
        rw [hm] at h
        rcases List.mem_cons.mp h with rfl | h
        · exact Or.inl (List.mem_cons_self c r)
        · rcases featGo_mem fuel (pyWord x) r c h with h2 | h2
          · exact Or.inl (List.mem_cons_of_mem x h2)
          · exact Or.inr h2
      | some n =>
        rw [hm] at h
        rcases List.mem_cons.mp h with rfl | h
        · exact Or.inr (by simp)
        rcases List.mem_cons.mp h with rfl | h
        · exact Or.inr (by simp)
        rcases List.mem_cons.mp h with rfl | h
        · exact Or.inr (by simp)
        rcases List.mem_cons.mp h with rfl | h
        · exact Or.inr (by simp)
        rcases featGo_mem fuel (n ≠ 5) ((x :: r).drop n) c h with h2 | h2
        · exact Or.inl (List.drop_subset n (x :: r) h2)
        · exact Or.inr h2

theorem pyLowerStr_fixed : ∀ {t : List Char}, (∀ c ∈ t, pyLower c = c) →
    pyLowerStr t = t
  | [], _ => rfl
  | c :: r, h => by
    unfold pyLowerStr
    rw [h c (List.mem_cons_self c r),
      pyLowerStr_fixed fun d hd => h d (List.mem_cons_of_mem c hd)]

theorem unidecStr_fixed : ∀ {t : List Char}, (∀ c ∈ t, unidecChar c = [c]) →
    unidecStr t = t
  | [], _ => rfl
  | c :: r, h => by
    unfold unidecStr
    rw [h c (List.mem_cons_self c r),
      unidecStr_fixed fun d hd => h d (List.mem_cons_of_mem c hd)]
    rfl

theorem punctGo_fixed : ∀ (b : Bool) {t : List Char},
    (∀ c ∈ t, isPunct c = false) → punctGo b t = t
  | _, [], _ => rfl
  | b, c :: r, h => by
    unfold punctGo
    rw [if_neg (by rw [h c (List.mem_cons_self c r)]; exact Bool.false_ne_true),
      punctGo_fixed false fun d hd => h d (List.mem_cons_of_mem c hd)]

theorem remixGo_fixed : ∀ (fuel : Nat) {t : List Char}, (∀ c ∈ t, c ≠ '(') →
    remixGo fuel t = t
  | 0, _, _ => rfl
  | _ + 1, [], _ => rfl
  | fuel + 1, c :: r, h => by
    unfold remixGo
    rw [if_neg (h c (List.mem_cons_self c r)),
      remixGo_fixed fuel fun d hd => h d (List.mem_cons_of_mem c hd)]

theorem wsGo_fixed : ∀ {t : List Char}, (∀ c ∈ t, pySpace c = true → c = ' ') →
    NoDouble t →
    (wsGo false t = t ∧
      ∀ hd rest2, t = hd :: rest2 → pySpace hd = false → wsGo true t = t)
  | [], _, _ => ⟨rfl, fun _ _ hh => by cases hh⟩
  | c :: r, hcanon, hnd => by
    have hr := wsGo_fixed (t := r)
      (fun d hd => hcanon d (List.mem_cons_of_mem c hd)) (List.Chain'.tail hnd)
    constructor
    · by_cases hc : pySpace c
      · have hc' : c = ' ' := hcanon c (List.mem_cons_self c r) hc
        unfold wsGo
        rw [if_pos hc, if_neg (by exact Bool.false_ne_true)]
        cases r with
        | nil => rw [hc']; rfl
        | cons y ys =>
          have hy : ¬(c = ' ' ∧ y = ' ') := (List.chain'_cons.mp hnd).1
          have hyne : y ≠ ' ' := fun hh => hy ⟨hc', hh⟩
          have hysp : pySpace y = false := by
            by_cases hsp : pySpace y
            · exact absurd (hcanon y (by simp) hsp) hyne
            · exact Bool.not_eq_true _ ▸ hsp
          rw [hr.2 y ys rfl hysp, hc']
      · unfold wsGo
        rw [if_neg hc, hr.1]
    · intro hd rest2 heq hhd
      cases heq
      unfold wsGo
      rw [if_neg (by rw [hhd]; exact Bool.false_ne_true), hr.1]

theorem wsGo_props : ∀ s : List Char,
    NoDouble (wsGo false s) ∧ NoDouble (wsGo true s) ∧
      ∀ hd, (wsGo true s).head? = some hd → pySpace hd = false
  | [] => ⟨List.chain'_nil, List.chain'_nil, fun _ hh => by cases hh⟩
  | c :: r => by
    obtain ⟨ih1, ih2, ih3⟩ := wsGo_props r
    by_cases hc : pySpace c
    · refine ⟨?_, ?_, ?_⟩
      · unfold wsGo
        rw [if_pos hc, if_neg (by exact Bool.false_ne_true)]
        refine List.chain'_cons'.mpr ⟨?_, ih2⟩
        intro y hy
        have := ih3 y hy
        rintro ⟨-, hy2⟩
        rw [hy2] at this
        exact absurd this (by decide)
      · unfold wsGo
        rw [if_pos hc, if_pos rfl]
        exact ih2
      · intro hd hh
        unfold wsGo at hh
        rw [if_pos hc, if_pos rfl] at hh
        exact ih3 hd hh
    · have hcne : c ≠ ' ' := fun hh => hc (by rw [hh]; rfl)
      refine ⟨?_, ?_, ?_⟩
      · unfold wsGo
        rw [if_neg hc]
        exact List.chain'_cons'.mpr ⟨fun y _ => fun hcon => hcne hcon.1, ih1⟩
      · unfold wsGo
        rw [if_neg hc]
        exact List.chain'_cons'.mpr ⟨fun y _ => fun hcon => hcne hcon.1, ih1⟩
      · intro hd hh
        unfold wsGo at hh
        rw [if_neg hc] at hh
        rw [List.head?_cons] at hh
        cases hh
        exact Bool.not_eq_true _ ▸ hc

theorem rstripGo_prefixOf : ∀ s : List Char, (rstripGo s).IsPrefix s
  | [] => ⟨[], rfl⟩
  | c :: r => by
    unfold rstripGo
    dsimp only
    by_cases h : rstripGo r = []
    · rw [if_pos h]
      by_cases hc : pySpace c
      · rw [if_pos hc]
        exact ⟨c :: r, rfl⟩
      · rw [if_neg hc]
        exact ⟨r, rfl⟩
    · rw [if_neg h]
      obtain ⟨t2, ht⟩ := rstripGo_prefixOf r
      exact ⟨t2, by rw [List.cons_append, ht]⟩

theorem rstripGo_last : ∀ (s : List Char) (x : Char),
    (rstripGo s).getLast? = some x → pySpace x = false
  | [], x, h => by cases h
  | c :: r, x, h => by
    unfold rstripGo at h
    dsimp only at h
    by_cases hr : rstripGo r = []
    · rw [if_pos hr] at h
      by_cases hc : pySpace c
      · rw [if_pos hc] at h
        cases h
      · rw [if_neg hc] at h
        have hcx : c = x := by simpa [List.getLast?] using h
        rw [← hcx]
        exact Bool.not_eq_true _ ▸ hc
    · rw [if_neg hr] at h
      obtain ⟨y, ys, hys⟩ := List.exists_cons_of_ne_nil hr
      rw [hys, List.getLast?_cons_cons] at h
      exact rstripGo_last r x (by rw [hys]; exact h)

theorem rstripGo_fixed : ∀ s : List Char,
    (∀ x, s.getLast? = some x → pySpace x = false) → rstripGo s = s
  | [], _ => rfl
  | c :: r, h => by
    unfold rstripGo
    dsimp only
    cases hr : r with
    | nil =>
      have hc : pySpace c = false := h c (by rw [hr]; rfl)
      simp [rstripGo, hc]
    | cons y ys =>
      have hrr : rstripGo r = r := by
        apply rstripGo_fixed r
        intro x hx
        apply h x
        rw [hr] at hx ⊢
        rw [List.getLast?_cons_cons]
        exact hx
      rw [hr] at hrr
      rw [hrr]
      simp

theorem rstripGo_head : ∀ (s : List Char) (hd : Char),
    (rstripGo s).head? = some hd → s.head? = some hd := by
  intro s hd h
  obtain ⟨t2, ht⟩ := rstripGo_prefixOf s
  obtain ⟨y, ys, hys⟩ := List.exists_cons_of_ne_nil
    (fun hh : rstripGo s = [] => by rw [hh] at h; cases h)
  rw [hys, List.head?_cons] at h
  cases h
  rw [← ht, hys, List.cons_append, List.head?_cons]

theorem pyStrip_head (s : List Char) (hd : Char)
    (h : (pyStrip s).head? = some hd) : pySpace hd = false := by
  unfold pyStrip at h
  have h2 := rstripGo_head _ hd h
  have h3 := List.head?_dropWhile_not pySpace s
  rw [h2] at h3
  exact h3

theorem pyStrip_last (s : List Char) (x : Char)
    (h : (pyStrip s).getLast? = some x) : pySpace x = false :=
  rstripGo_last _ x h

theorem pyStrip_fixed (t : List Char)
    (hhead : ∀ hd, t.head? = some hd → pySpace hd = false)
    (hlast : ∀ x, t.getLast? = some x → pySpace x = false) : pyStrip t = t := by
  unfold pyStrip
  have hdw : t.dropWhile pySpace = t := by
    cases t with
    | nil => rfl
    | cons c r =>
      exact List.dropWhile_cons_of_neg
        (by rw [hhead c (List.head?_cons)]; exact Bool.false_ne_true)
  rw [hdw]
  exact rstripGo_fixed t hlast

theorem pyStrip_idem (s : List Char) : pyStrip (pyStrip s) = pyStrip s :=
  pyStrip_fixed _ (pyStrip_head s) (pyStrip_last s)

theorem pyStrip_subset (s : List Char) : ∀ c ∈ pyStrip s, c ∈ s := by
  intro c hc
  unfold pyStrip at hc
  exact (List.dropWhile_suffix pySpace).subset
    ((rstripGo_prefixOf _).subset hc)

theorem pyStrip_noDouble (s : List Char) (h : NoDouble s) :
    NoDouble (pyStrip s) :=
  List.Chain'.prefix
    (List.Chain'.suffix h (List.dropWhile_suffix pySpace)) (rstripGo_prefixOf _)

theorem featGo_noDouble : ∀ (fuel : Nat) (b : Bool) (s : List Char), NoDouble s →
    NoDouble (featGo fuel b s) ∧
      ∀ hd, (featGo fuel b s).head? = some hd → hd = 'f' ∨ s.head? = some hd
  | 0, _, s, h => ⟨h, fun _ hh => Or.inr hh⟩
  | _ + 1, _, [], _ => ⟨List.chain'_nil, fun _ hh => by cases hh⟩
  | fuel + 1, b, c :: r, h => by
    have hr : NoDouble r := List.Chain'.tail h
    by_cases hb : b = true
    · obtain ⟨ih1, ih2⟩ := featGo_noDouble fuel (pyWord c) r hr
      unfold featGo
      rw [if_pos hb]
      refine ⟨List.chain'_cons'.mpr ⟨?_, ih1⟩,
        fun hd hh => Or.inr (by rw [List.head?_cons] at hh ⊢; exact hh)⟩
      intro y hy
      rcases ih2 y hy with rfl | hy2
      · rintro ⟨-, hff⟩
        exact absurd hff (by decide)
      · exact (List.chain'_cons'.mp h).1 y hy2
    · cases hm : featMatch (c :: r) with
      | none =>
        obtain ⟨ih1, ih2⟩ := featGo_noDouble fuel (pyWord c) r hr
        unfold featGo
        rw [if_neg hb, hm]
        refine ⟨List.chain'_cons'.mpr ⟨?_, ih1⟩,
          fun hd hh => Or.inr (by rw [List.head?_cons] at hh ⊢; exact hh)⟩
        intro y hy
        rcases ih2 y hy with rfl | hy2
        · rintro ⟨-, hff⟩
          exact absurd hff (by decide)
        · exact (List.chain'_cons'.mp h).1 y hy2
      | some n =>
        have hdrop : NoDouble ((c :: r).drop n) := List.Chain'.drop h n
        obtain ⟨ih1, ih2⟩ := featGo_noDouble fuel (n ≠ 5) ((c :: r).drop n) hdrop
        unfold featGo
        rw [if_neg hb, hm]
        refine ⟨?_, fun hd hh => Or.inl (by rw [List.head?_cons] at hh; cases hh; rfl)⟩
        refine List.chain'_cons'.mpr ⟨fun y hy => ?_, ?_⟩
        · rintro ⟨hf, -⟩
          exact absurd hf (by decide)
        refine List.chain'_cons'.mpr ⟨fun y hy => ?_, ?_⟩
        · rintro ⟨hf, -⟩
          exact absurd hf (by decide)
        refine List.chain'_cons'.mpr ⟨fun y hy => ?_, ?_⟩
        · rintro ⟨hf, -⟩
          exact absurd hf (by decide)
        refine List.chain'_cons'.mpr ⟨fun y hy => ?_, ih1⟩
        rintro ⟨hf, -⟩
        exact absurd hf (by decide)

/-- Every normalized string consists of stage-fixed characters, has no
double spaces, and is stripped. -/
theorem normalizeCore_NF (v : List Char) :
    (∀ c ∈ normalizeCore v, GoodChar c) ∧ NoDouble (normalizeCore v) ∧
      pyStrip (normalizeCore v) = normalizeCore v := by
  unfold normalizeCore
  dsimp only
  have g2 : ∀ c ∈ unidecStr (pyLowerStr (pyStrip v)), unidecChar c = [c] := by
    intro c hc
    obtain ⟨d, _, hcd⟩ := unidecStr_mem hc
    exact unidecChar_good d c hcd
  have g3 : ∀ c ∈ punctSub (unidecStr (pyLowerStr (pyStrip v))),
      unidecChar c = [c] ∧ isPunct c = false := by
    intro c hc
    rcases punctGo_mem false _ c hc with rfl | ⟨hc2, hp⟩
    · exact ⟨by decide, by decide⟩
    · exact ⟨g2 c hc2, hp⟩
  have g4 : ∀ c ∈ wsCollapse (punctSub (unidecStr (pyLowerStr (pyStrip v)))),
      GoodChar c := by
    intro c hc
    rcases wsGo_mem false _ c hc with rfl | ⟨hc2, hs⟩
    · exact ⟨by decide, by decide, fun _ => rfl⟩
    · obtain ⟨hb, hp⟩ := g3 c hc2
      refine ⟨hb, hp, fun hsp => ?_⟩
      rw [hs] at hsp
      cases hsp
  have g5 : ∀ c ∈ pyStrip (wsCollapse (punctSub (unidecStr (pyLowerStr (pyStrip v))))),
      GoodChar c := fun c hc => g4 c (pyStrip_subset _ c hc)
  have nd5 : NoDouble (pyStrip (wsCollapse (punctSub (unidecStr (pyLowerStr (pyStrip v)))))) :=
    pyStrip_noDouble _ (wsGo_props _).1
  have g6 : ∀ c ∈ featSub
      (pyStrip (wsCollapse (punctSub (unidecStr (pyLowerStr (pyStrip v)))))),
      GoodChar c := by
    intro c hc
    rcases featGo_mem _ _ _ c hc with h | h
    · exact g5 c h
    · simp only [List.mem_cons, List.mem_singleton] at h
      rcases h with rfl | rfl | rfl | rfl | h
      · exact ⟨by decide, by decide, fun hh => by cases hh⟩
      · exact ⟨by decide, by decide, fun hh => by cases hh⟩
      · exact ⟨by decide, by decide, fun hh => by cases hh⟩
      · exact ⟨by decide, by decide, fun hh => by cases hh⟩
      · cases h
  have nd6 : NoDouble (featSub
      (pyStrip (wsCollapse (punctSub (unidecStr (pyLowerStr (pyStrip v))))))) :=
    (featGo_noDouble _ false _ nd5).1
  have hremix : remixSub (featSub
      (pyStrip (wsCollapse (punctSub (unidecStr (pyLowerStr (pyStrip v))))))) =
      featSub (pyStrip (wsCollapse (punctSub (unidecStr (pyLowerStr (pyStrip v)))))) := by
    apply remixGo_fixed
    intro c hc heq
    have h6 := (g6 c hc).2.1
    rw [heq] at h6
    exact absurd h6 (by decide)
  rw [hremix]
  exact ⟨fun c hc => g6 c (pyStrip_subset _ c hc), pyStrip_noDouble _ nd6,
    pyStrip_idem _⟩

/-- A normal-form string that both the lower-casing step and the feat
substitution fix is fixed by the whole pipeline.  (Lower-case fixedness is a
genuine extra condition: `unidecode` can emit uppercase ASCII.) -/
theorem normalizeCore_fixed (t : List Char) (hg : ∀ c ∈ t, GoodChar c)
    (hnd : NoDouble t) (hstrip : pyStrip t = t) (hlow : pyLowerStr t = t)
    (hfeat : featSub t = t) :
    normalizeCore t = t := by
  unfold normalizeCore
  dsimp only
  rw [hstrip, hlow,
    unidecStr_fixed fun c hc => (hg c hc).1,
    show punctSub t = t from punctGo_fixed false fun c hc => (hg c hc).2.1,
    show wsCollapse t = t from
      (wsGo_fixed (fun c hc => (hg c hc).2.2) hnd).1,
    hstrip, hfeat,
    show remixSub t = t from remixGo_fixed _ fun c hc heq => by
      have h6 := (hg c hc).2.1
      rw [heq] at h6
      exact absurd h6 (by decide)]
  exact hstrip

end Normalizer

/-! ## The claims -/

namespace Claims

open Normalizer Sha1 Uid Catalog Db Services

set_option maxRecDepth 8000

/-- C1 (code bug): the spec says a parenthetical clause containing "remix"
is stripped after parentheses have been replaced by spaces, and that
`normalize("Song (Club Remix)") = normalize("Song")`.  In the code the
parenthesis characters are consumed by `_PUNCT_RE` before `_REMIX_RE`
runs, so the remix clause survives (as `club remix`): at the failing input
`"Song (Club Remix)"` the two sides differ. -/
theorem c1_remix_clause_not_stripped :
    normalize_text (some (lc "Song (Club Remix)")) = lc "song club remix" ∧
    normalize_text (some (lc "Song")) = lc "song" ∧
    lc "song club remix" ≠ lc "song" := by
  refine ⟨by decide, by decide, by decide⟩

/-- C3 is false as stated: `normalize` is not idempotent, for two
independent reasons.  (1) The feat regex's backtracking turns
`"feat.uring"` into `"featuring"` (the matched `"feat."` is replaced by
`"feat"` and scanning resumes after it), and a second application
collapses `"featuring"` to `"feat"`.  (2) `unidecode` runs after
`str.lower()` and can emit uppercase ASCII: `normalize("№") = "No"`, and a
second application lower-cases it to `"no"`. -/
theorem c3_counterexample_not_idempotent :
    (normalize_text (some (normalize_text (some (lc "feat.uring")))) ≠
        normalize_text (some (lc "feat.uring")) ∧
      normalize_text (some (lc "feat.uring")) = lc "featuring" ∧
      normalize_text (some (lc "featuring")) = lc "feat") ∧
    (normalize_text (some (normalize_text (some (lc "№")))) ≠
        normalize_text (some (lc "№")) ∧
      normalize_text (some (lc "№")) = lc "No" ∧
      normalize_text (some (lc "No")) = lc "no") := by
  exact ⟨⟨by decide, by decide, by decide⟩, ⟨by decide, by decide, by decide⟩⟩

/-- C3 (amended): `normalize` maps case and diacritic variants of the same
text onto the same output (`normalize("Beyoncé") = normalize("beyonce")`),
and it is idempotent on every input whose normalized form is fixed both by
the feat-canonicalization step and by lower-casing (the two non-idempotent
stages: feat re-substitution can create a new match, and `unidecode` can
emit uppercase ASCII after the `str.lower()` step; every other stage fixes
every normalized output). -/
theorem c3_amended_idempotent_unless_feat_rematches :
    (∀ x : Option (List Char), featSub (normalize_text x) = normalize_text x →
      pyLowerStr (normalize_text x) = normalize_text x →
      normalize_text (some (normalize_text x)) = normalize_text x) ∧
    normalize_text (some (lc "Beyoncé")) = normalize_text (some (lc "beyonce")) := by
  constructor
  · intro x hfeat hlow
    match x with
    | none => decide
    | some v =>
      by_cases hv : v = []
      · subst hv
        decide
      · have hnv : normalize_text (some v) = normalizeCore v := by
          simp [normalize_text, hv]
        rw [hnv] at hfeat hlow ⊢
        by_cases ht : normalizeCore v = []
        · rw [ht]
          decide
        · have hNF := normalizeCore_NF v
          have hsome : normalize_text (some (normalizeCore v)) =
              normalizeCore (normalizeCore v) := by
            simp [normalize_text, ht]
          rw [hsome]
          exact normalizeCore_fixed _ hNF.1 hNF.2.1 hNF.2.2 hlow hfeat
  · decide

/-- C3 amended witness: `normalize` is idempotent at `"Beyoncé"`, whose
normalized form the feat substitution and lower-casing both fix. -/
theorem c3_amended_witness :
    normalize_text (some (normalize_text (some (lc "Beyoncé")))) =
      normalize_text (some (lc "Beyoncé")) :=
  c3_amended_idempotent_unless_feat_rematches.1 (some (lc "Beyoncé"))
    (by decide) (by decide)

/-- C4: `make_track_uid` is unchanged under a 1-second duration jitter at
the default tolerance 2 (durations 200 and 201 fall in the same bucket),
and a different title yields a different UID. -/
theorem c4_make_uid_jitter_stable :
    make_track_uid (some (lc "A")) (some (lc "T")) (some (lc "Alb")) (some 200) =
      make_track_uid (some (lc "A")) (some (lc "T")) (some (lc "Alb")) (some 201) ∧
    make_track_uid (some (lc "A")) (some (lc "T")) (some (lc "Alb")) (some 200) ≠
      make_track_uid (some (lc "A")) (some (lc "T2")) (some (lc "Alb")) (some 200) := by
  refine ⟨by decide, by decide⟩

/-- C5: on the observed set `{EFR041..EFR046, EFR048}` with
`min_sequence_length = 5` and the default `max_gap` and `min_coverage`,
`compute_catalog_gaps` yields exactly one gap, `(EFR, 47)`; and for every
input the returned list is sorted by `(prefix, number)`. -/
theorem c5_catalog_gap_efr047_and_sorted :
    (Catalog.compute_catalog_gaps
        ((["EFR041", "EFR042", "EFR043", "EFR044", "EFR045", "EFR046",
            "EFR048"].map lc).filterMap fun s => parse_catalog_number (some s))
        []).map (fun g => (g.pfx, g.number)) = [(lc "EFR", 47)] ∧
    ∀ observed releases minLen maxGap minCov,
      List.Sorted (fun a b => gapLe a b = true)
        (Catalog.compute_catalog_gaps observed releases minLen maxGap minCov) := by
  constructor
  · decide
  · intro observed releases minLen maxGap minCov
    haveI : IsTotal CatalogGap (fun a b => gapLe a b = true) := ⟨gapLe_total⟩
    haveI : IsTrans CatalogGap (fun a b => gapLe a b = true) := ⟨gapLe_trans⟩
    exact List.sorted_insertionSort _ _

/-- C6 is false: within a retained segment whose width counts are tied,
the code's `most_common(1)` keeps the first-inserted width, not the
smallest.  For observed `AB001, AB002, AB03, AB04, AB6` the segment
`[1,2,3,4,6]` has widths `[3,3,2,2,1]` (3 and 2 equally frequent); the
code pads the gap at 5 to `AB005`, while the claim's smallest-width
tie-break would give `AB05`. -/
theorem c6_counterexample_tie_not_smallest :
    ((["AB001", "AB002", "AB03", "AB04", "AB6"].map lc).filterMap fun s =>
        parse_catalog_number (some s)).map (fun e => (e.number, e.width)) =
      [(1, 3), (2, 3), (3, 2), (4, 2), (6, 1)] ∧
    (Catalog.compute_catalog_gaps
        ((["AB001", "AB002", "AB03", "AB04", "AB6"].map lc).filterMap fun s =>
          parse_catalog_number (some s))
        []).map CatalogGap.catalog_id = [lc "AB005"] ∧
    specTieWidth [3, 3, 2, 2, 1] = some 2 ∧
    formatCatalog (lc "AB") 5 2 none = lc "AB05" ∧
    lc "AB005" ≠ lc "AB05" := by
  refine ⟨by decide, by decide, by decide, by decide, by decide⟩

/-- C6 (amended): the display identifier is zero-padded to the most
frequent width of the segment, with ties broken by the width first
inserted into the counter (first occurrence while scanning the segment),
not the smallest: the chosen key strictly exceeds every earlier count and
dominates every later one, counter keys are exactly the distinct widths,
and the `AB` example pads with the first-occurring tied width 3. -/
theorem c6_amended_tie_first_inserted :
    (∀ ws w, mostCommon1 (counterOf ws) = some w →
      ∃ pre cnt post, counterOf ws = pre ++ (w, cnt) :: post ∧
        (∀ x ∈ pre, x.2 < cnt) ∧ (∀ x ∈ post, x.2 ≤ cnt)) ∧
    (∀ ws, ((counterOf ws).map Prod.fst).Nodup ∧
      ∀ w, w ∈ (counterOf ws).map Prod.fst ↔ w ∈ ws) ∧
    (Catalog.compute_catalog_gaps
        ((["AB001", "AB002", "AB03", "AB04", "AB6"].map lc).filterMap fun s =>
          parse_catalog_number (some s))
        []).map CatalogGap.catalog_id = [lc "AB005"] := by
  refine ⟨?_, ?_, by decide⟩
  · intro ws w h
    simp only [mostCommon1, Option.map_eq_some'] at h
    obtain ⟨p, hp, hpw⟩ := h
    rcases pickMax_fold_spec (counterOf ws) none p hp with ⟨hacc, _⟩ | ⟨pre, post, hsplit, _, hpre, hpost⟩
    · cases hacc
    · refine ⟨pre, p.2, post, ?_, hpre, hpost⟩
      rw [← hpw]
      simpa using hsplit
  · intro ws
    exact ⟨foldl_countAdd_keys_nodup ws [] (by simp),
      fun w => by simpa using foldl_countAdd_mem ws [] w⟩

/-- C9: `parse_catalog_number` is a total function of its input (it never
raises); it returns `none` exactly on falsy input or input whose cleaned
form lacks a leading alphabetic run followed by a digit run, and the
example `" EFR 047-DJ "` parses to `(EFR, 47, width 3, "-DJ")`. -/
theorem c9_parse_catalog_total_and_example :
    parse_catalog_number none = none ∧
    (∀ s, parse_catalog_number (some s) = none ↔ ¬ catalogShape (cleanCatalog s)) ∧
    parse_catalog_number (some (lc " EFR 047-DJ ")) =
      some { raw := lc " EFR 047-DJ ", pfx := lc "EFR", number := 47, width := 3,
             suffix := lc "-DJ" } := by
  refine ⟨rfl, ?_, by decide⟩
  intro s
  rw [catalogShape_iff]
  by_cases hs : s = []
  · subst hs
    simp [parse_catalog_number, cleanCatalog, pyStrip, rstripGo]
  · simp only [parse_catalog_number, if_neg hs]
    by_cases hc : cleanCatalog s = []
    · simp [hc]
    · simp only [if_neg hc]
      by_cases ha : (cleanCatalog s).takeWhile Char.isAlpha = []
      · simp [ha]
      · simp only [if_neg ha]
        by_cases hd : ((cleanCatalog s).dropWhile Char.isAlpha).takeWhile Char.isDigit = []
        · simp [hd, ha]
        · simp [ha, hd]

/-- C7 is false on both counts: the alias learner stores `raw.lower()`,
not `normalize_text(raw)` (witnessed by `"Beyoncé"`, stored as
`"beyoncé"` while the Normalizer yields `"beyonce"`), and the uniqueness
check is global per table, not per owning entity (a title alias `"x"`
owned by track 99 blocks learning the same key for track 10). -/
theorem c7_counterexample_alias_keys :
    (Db.learn_aliases_from_listen Db.aliasExampleDb 1 10).artist_aliases =
      [{ artist_id := some 5, alias_normalized := lc "beyoncé" }] ∧
    normalize_text (some (lc "Beyoncé")) = lc "beyonce" ∧
    lc "beyoncé" ≠ lc "beyonce" ∧
    (Db.learn_aliases_from_listen Db.aliasExampleDb 1 10).title_aliases =
      [{ track_id := 99, alias_normalized := lc "x" }] := by
  refine ⟨by decide, by decide, by decide, by decide⟩

/-- C7 (amended): every alias created by alias learning is stored under
the lower-cased raw string, and an alias is only created when its key is
absent from the whole alias table (global uniqueness, not per owning
entity): every row after learning is either an old row or carries the
lower-cased raw string as key, with no prior row anywhere holding that
key. -/
theorem c7_amended_alias_keys_lowercased_globally_unique :
    ∀ (db : DB) (lid tid : Nat),
      (∀ r ∈ (Db.learn_aliases_from_listen db lid tid).artist_aliases,
        r ∈ db.artist_aliases ∨
          (((db.listens.find? fun l => l.id = lid).bind Listen.artist_name_raw).map
              pyLowerStr = some r.alias_normalized ∧
            ∀ r2 ∈ db.artist_aliases, r2.alias_normalized ≠ r.alias_normalized)) ∧
      (∀ r ∈ (Db.learn_aliases_from_listen db lid tid).title_aliases,
        r ∈ db.title_aliases ∨
          (((db.listens.find? fun l => l.id = lid).bind Listen.track_title_raw).map
              pyLowerStr = some r.alias_normalized ∧
            ∀ r2 ∈ db.title_aliases, r2.alias_normalized ≠ r.alias_normalized)) := by
  intro db lid tid
  cases hf : db.listens.find? fun l => l.id = lid with
  | none =>
    constructor <;> intro r hr <;> left
    · simpa [Db.learn_aliases_from_listen, hf] using hr
    · simpa [Db.learn_aliases_from_listen, hf] using hr
  | some l =>
    have hlearn : Db.learn_aliases_from_listen db lid tid =
        Db.learnTitleAlias (Db.learnArtistAlias db l tid) l tid := by
      simp [Db.learn_aliases_from_listen, hf]
    constructor
    · intro r hr
      rw [hlearn, Db.learnTitleAlias_artist] at hr
      rcases Db.learnArtistAlias_spec db l tid with hsame | ⟨tr, a, _, ha, _, hany, hadd⟩
      · exact Or.inl (hsame ▸ hr)
      · rw [hadd] at hr
        rcases List.mem_append.mp hr with h | h
        · exact Or.inl h
        · right
          have hrr := List.mem_singleton.mp h
          subst hrr
          refine ⟨by simp [hf, ha], ?_⟩
          intro r2 hr2
          simpa using List.any_eq_false.mp hany r2 hr2
    · intro r hr
      have hframe : (Db.learnArtistAlias db l tid).title_aliases = db.title_aliases :=
        Db.learnArtistAlias_title db l tid
      rw [hlearn] at hr
      rcases Db.learnTitleAlias_spec (Db.learnArtistAlias db l tid) l tid with
        hsame | ⟨t, ht, _, hany, hadd⟩
      · exact Or.inl (hframe ▸ hsame ▸ hr)
      · rw [hadd, hframe] at hr
        rcases List.mem_append.mp hr with h | h
        · exact Or.inl h
        · right
          have hrr := List.mem_singleton.mp h
          subst hrr
          refine ⟨by simp [hf, ht], ?_⟩
          intro r2 hr2
          rw [hframe] at hany
          simpa using List.any_eq_false.mp hany r2 hr2

/-- C2: in `enrich_pending` every fetched pending/unmatched listen receives
exactly one outcome (matched with confidence 100, track link and cleared
candidates; or ambiguous with the candidate set persisted, replacing any
prior set, and confidence equal to the maximum candidate confidence; or
unmatched with null confidence), the returned counts satisfy
`processed = matched + ambiguous + unmatched`, and every fuzzy candidate
confidence is 50, or 80 only when a duration was supplied. -/
theorem c2_enrich_pending_outcomes :
    ∀ (db : DB) (since : Option Nat) (limit : Nat),
      (db.listens.map Db.Listen.id).Nodup →
      (Services.enrich_pending db since limit).1.processed =
          (Services.enrich_pending db since limit).1.matched +
          (Services.enrich_pending db since limit).1.ambiguous +
          (Services.enrich_pending db since limit).1.unmatched ∧
      (Services.enrich_pending db since limit).1.processed =
        (Db.fetch_pending_listens db since limit).length ∧
      (∀ l ∈ Db.fetch_pending_listens db since limit,
        Services.listenOutcome db (Services.enrich_pending db since limit).2 l) ∧
      (∀ (a t : Option (List Char)) (d : Option Int) (lim : Nat) (p : Nat × Int),
        p ∈ Db.search_tracks_by_metadata db a t d lim →
        p.2 = 50 ∨ (p.2 = 80 ∧ d ≠ none)) := by
  intro db since limit hnd
  have hF := Services.fetch_pending_nodup db since limit hnd
  obtain ⟨hp, hs, hout⟩ := Services.fold_main db
    (Db.fetch_pending_listens db since limit)
    { processed := 0, matched := 0, ambiguous := 0, unmatched := 0 } db rfl rfl hF
  have hE : Services.enrich_pending db since limit =
      (Db.fetch_pending_listens db since limit).foldl Services.enrichStep
        ({ processed := 0, matched := 0, ambiguous := 0, unmatched := 0 }, db) := rfl
  refine ⟨?_, ?_, ?_, fun a t d lim p hp2 => Services.search_scores db a t d lim p hp2⟩
  · rw [hE, hp, hs]
    simp
  · rw [hE, hp]
    simp
  · intro l hl
    rw [hE]
    exact hout l hl

/-- C2 witness: the counters of `enrich_pending` over `emptyMetaDb` satisfy
the claimed identity. -/
theorem c2_witness :
    (Services.enrich_pending Db.emptyMetaDb none 10).1.processed =
        (Services.enrich_pending Db.emptyMetaDb none 10).1.matched +
        (Services.enrich_pending Db.emptyMetaDb none 10).1.ambiguous +
        (Services.enrich_pending Db.emptyMetaDb none 10).1.unmatched :=
  (c2_enrich_pending_outcomes Db.emptyMetaDb none 10 (by decide)).1

/-- C8: `confirm_match` forces every row of the listen to status `matched`
with confidence 100 and the confirmed track, whatever its prior state; and
with `learn_aliases = True` it is idempotent: starting from a state where
neither lower-cased key exists, both after one call and after two calls
the artist and title alias tables hold exactly one row with the learned
key. -/
theorem c8_confirm_match_forces_and_idempotent :
    ∀ (db : DB) (lid tid : Nat) (l : Listen) (tr : Track) (a t : List Char),
      (db.listens.find? fun x => x.id = lid) = some l →
      l.artist_name_raw = some a → a ≠ [] →
      l.track_title_raw = some t → t ≠ [] →
      (db.tracks.find? fun x => x.id = tid) = some tr →
      Db.artistKeyCount db (pyLowerStr a) = 0 →
      Db.titleKeyCount db (pyLowerStr t) = 0 →
      (∀ row ∈ (Services.confirm_match db lid tid true).listens, row.id = lid →
        row.enrich_status = lc "matched" ∧ row.match_confidence = some 100 ∧
          row.track_id = some tid) ∧
      (∀ row ∈ (Services.confirm_match (Services.confirm_match db lid tid true)
          lid tid true).listens, row.id = lid →
        row.enrich_status = lc "matched" ∧ row.match_confidence = some 100 ∧
          row.track_id = some tid) ∧
      Db.artistKeyCount (Services.confirm_match db lid tid true) (pyLowerStr a) = 1 ∧
      Db.titleKeyCount (Services.confirm_match db lid tid true) (pyLowerStr t) = 1 ∧
      Db.artistKeyCount (Services.confirm_match (Services.confirm_match db lid tid true)
        lid tid true) (pyLowerStr a) = 1 ∧
      Db.titleKeyCount (Services.confirm_match (Services.confirm_match db lid tid true)
        lid tid true) (pyLowerStr t) = 1 := by
  intro db lid tid l tr a t hfl ha hane ht htne hftr hac htc
  have hlid : l.id = lid := by simpa using List.find?_some hfl
  have hanyA : (db.artist_aliases.any fun r =>
      r.alias_normalized = pyLowerStr a) = false := by
    rw [List.any_eq_false]
    exact List.filter_eq_nil_iff.mp (List.length_eq_zero.mp hac)
  have hanyT : (db.title_aliases.any fun r =>
      r.alias_normalized = pyLowerStr t) = false := by
    rw [List.any_eq_false]
    exact List.filter_eq_nil_iff.mp (List.length_eq_zero.mp htc)
  -- the listen row after the first link
  have hfindL : (Db.link_listen db lid tid (lc "matched") 100).listens.find?
      (fun x => x.id = lid) = some
        { l with track_id := some tid, enrich_status := lc "matched",
                 match_confidence := some 100 } := by
    rw [Db.find?_listens_link, hfl]
    simp [hlid]
  -- the first confirm in learn form
  have hc1 : Services.confirm_match db lid tid true =
      Db.learnTitleAlias
        (Db.learnArtistAlias (Db.link_listen db lid tid (lc "matched") 100)
          { l with track_id := some tid, enrich_status := lc "matched",
                   match_confidence := some 100 } tid)
        { l with track_id := some tid, enrich_status := lc "matched",
                 match_confidence := some 100 } tid := by
    simp [Services.confirm_match, Db.learn_aliases_from_listen, hfindL]
  have haddA : Db.learnArtistAlias (Db.link_listen db lid tid (lc "matched") 100)
      { l with track_id := some tid, enrich_status := lc "matched",
               match_confidence := some 100 } tid =
      { Db.link_listen db lid tid (lc "matched") 100 with
        artist_aliases :=
          (Db.link_listen db lid tid (lc "matched") 100).artist_aliases ++
            [⟨tr.primary_artist_id, pyLowerStr a⟩] } :=
    Db.learnArtistAlias_adds _ _ _ tr a hftr (by simpa using ha) hane hanyA
  have hdb1_artist : (Services.confirm_match db lid tid true).artist_aliases =
      db.artist_aliases ++ [⟨tr.primary_artist_id, pyLowerStr a⟩] := by
    rw [hc1, Db.learnTitleAlias_artist, haddA]
    rfl
  have hdb1_title : (Services.confirm_match db lid tid true).title_aliases =
      db.title_aliases ++ [⟨tid, pyLowerStr t⟩] := by
    rw [hc1,
      Db.learnTitleAlias_adds _ _ _ t (by simpa using ht) htne
        (by rw [haddA]; exact hanyT)]
    rw [haddA]
    rfl
  have hdb1_listens : (Services.confirm_match db lid tid true).listens =
      (Db.link_listen db lid tid (lc "matched") 100).listens := by
    rw [hc1, Db.learnTitleAlias_listens, Db.learnArtistAlias_listens]
  have hdb1_tracks : (Services.confirm_match db lid tid true).tracks = db.tracks := by
    rw [hc1, Db.learnTitleAlias_tracks, Db.learnArtistAlias_tracks]
    rfl
  -- counts after the first call
  have hcount1A : Db.artistKeyCount (Services.confirm_match db lid tid true)
      (pyLowerStr a) = 1 := by
    rw [Db.artistKeyCount, hdb1_artist, List.filter_append]
    rw [Db.artistKeyCount] at hac
    simp [hac]
  have hcount1T : Db.titleKeyCount (Services.confirm_match db lid tid true)
      (pyLowerStr t) = 1 := by
    rw [Db.titleKeyCount, hdb1_title, List.filter_append]
    rw [Db.titleKeyCount] at htc
    simp [htc]
  -- the listen row inside the second confirm
  have hfindL2 : (Db.link_listen (Services.confirm_match db lid tid true) lid tid
      (lc "matched") 100).listens.find? (fun x => x.id = lid) = some
        { l with track_id := some tid, enrich_status := lc "matched",
                 match_confidence := some 100 } := by
    rw [Db.find?_listens_link, hdb1_listens, hfindL]
    simp [hlid]
  have hanyA2 : ((Db.link_listen (Services.confirm_match db lid tid true) lid tid
      (lc "matched") 100).artist_aliases.any fun r =>
        r.alias_normalized = pyLowerStr a) = true := by
    show ((Services.confirm_match db lid tid true).artist_aliases.any _) = true
    rw [hdb1_artist, List.any_eq_true]
    exact ⟨⟨tr.primary_artist_id, pyLowerStr a⟩, by simp, by simp⟩
  have hanyT2 : ((Db.link_listen (Services.confirm_match db lid tid true) lid tid
      (lc "matched") 100).title_aliases.any fun r =>
        r.alias_normalized = pyLowerStr t) = true := by
    show ((Services.confirm_match db lid tid true).title_aliases.any _) = true
    rw [hdb1_title, List.any_eq_true]
    exact ⟨⟨tid, pyLowerStr t⟩, by simp, by simp⟩
  have hconf : ∀ dbx : DB, Services.confirm_match dbx lid tid true =
      Db.learn_aliases_from_listen (Db.link_listen dbx lid tid (lc "matched") 100)
        lid tid := fun dbx => by simp [Services.confirm_match]
  have hc2 : Services.confirm_match (Services.confirm_match db lid tid true)
      lid tid true =
      Db.link_listen (Services.confirm_match db lid tid true) lid tid
        (lc "matched") 100 := by
    rw [hconf (Services.confirm_match db lid tid true)]
    simp only [Db.learn_aliases_from_listen, hfindL2]
    rw [Db.learnArtistAlias_skip _ _ _ a (by simpa using ha) hanyA2]
    rw [Db.learnTitleAlias_skip _ _ _ t (by simpa using ht) hanyT2]
  refine ⟨?_, ?_, hcount1A, hcount1T, ?_, ?_⟩
  · intro row hrow hid
    rw [hdb1_listens] at hrow
    exact Db.link_listen_rows db lid tid (lc "matched") 100 row hrow hid
  · intro row hrow hid
    rw [hc2] at hrow
    exact Db.link_listen_rows _ lid tid (lc "matched") 100 row hrow hid
  · rw [hc2]
    show Db.artistKeyCount (Services.confirm_match db lid tid true) (pyLowerStr a) = 1
    exact hcount1A
  · rw [hc2]
    show Db.titleKeyCount (Services.confirm_match db lid tid true) (pyLowerStr t) = 1
    exact hcount1T

/-- C8 witness: confirming listen 1 against track 10 of
`confirmExampleDb` twice sets the listen to `matched`/100 and leaves
exactly one alias per raw string. -/
theorem c8_witness :
    (∀ row ∈ (Services.confirm_match Db.confirmExampleDb 1 10 true).listens,
      row.id = 1 → row.enrich_status = lc "matched" ∧
        row.match_confidence = some 100 ∧ row.track_id = some 10) ∧
    (∀ row ∈ (Services.confirm_match
        (Services.confirm_match Db.confirmExampleDb 1 10 true) 1 10 true).listens,
      row.id = 1 → row.enrich_status = lc "matched" ∧
        row.match_confidence = some 100 ∧ row.track_id = some 10) ∧
    Db.artistKeyCount (Services.confirm_match Db.confirmExampleDb 1 10 true)
      (pyLowerStr (lc "A")) = 1 ∧
    Db.titleKeyCount (Services.confirm_match Db.confirmExampleDb 1 10 true)
      (pyLowerStr (lc "T")) = 1 ∧
    Db.artistKeyCount (Services.confirm_match
      (Services.confirm_match Db.confirmExampleDb 1 10 true) 1 10 true)
      (pyLowerStr (lc "A")) = 1 ∧
    Db.titleKeyCount (Services.confirm_match
      (Services.confirm_match Db.confirmExampleDb 1 10 true) 1 10 true)
      (pyLowerStr (lc "T")) = 1 :=
  c8_confirm_match_forces_and_idempotent Db.confirmExampleDb 1 10 Db.confirmListen
    Db.confirmTrack (lc "A") (lc "T") (by decide) (by decide) (by decide)
    (by decide) (by decide) (by decide) (by decide) (by decide)

/-- C10: when both textual inputs are falsy or normalize to the empty
string, `search_tracks_by_metadata` applies no filter at all and returns
the first `limit` library tracks with their duration-based confidences;
consequently the pending listen of `emptyMetaDb`, whose raw artist and
title are empty, is marked `ambiguous` with confidence 50 and a candidate
pointing at the unrelated track 77. -/
theorem c10_empty_filters_return_arbitrary_tracks :
    (∀ (db : DB) (artist title : Option (List Char)) (duration : Option Int)
        (limit : Nat),
      (artist = none ∨ normalize_text artist = []) →
      (title = none ∨ normalize_text title = []) →
      Db.search_tracks_by_metadata db artist title duration limit =
        (db.tracks.take limit).map fun t =>
          (t.id, Db.rowConfidence duration t.duration_secs)) ∧
    (Services.enrich_pending Db.emptyMetaDb none 10).1 =
      { processed := 1, matched := 0, ambiguous := 1, unmatched := 0 } ∧
    Db.candsOf (Services.enrich_pending Db.emptyMetaDb none 10).2 1 =
      [{ listen_id := 1, track_id := 77, confidence := 50 }] ∧
    ((Services.enrich_pending Db.emptyMetaDb none 10).2.listens.map fun l =>
        (l.enrich_status, l.match_confidence)) = [(lc "ambiguous", some 50)] := by
  refine ⟨?_, by decide, by decide, by decide⟩
  intro db artist title duration limit ha ht
  have hfa : Db.activeFilter artist = none := by
    rcases ha with ha | ha
    · simp [Db.activeFilter, ha]
    · cases artist with
      | none => rfl
      | some v =>
        by_cases hv : v = [] <;> simp [Db.activeFilter, hv, ha]
  have hft : Db.activeFilter title = none := by
    rcases ht with ht | ht
    · simp [Db.activeFilter, ht]
    · cases title with
      | none => rfl
      | some v =>
        by_cases hv : v = [] <;> simp [Db.activeFilter, hv, ht]
  simp [Db.search_tracks_by_metadata, hfa, hft]

/-- C10 witness: the unfiltered query over `emptyMetaDb` with empty artist
and title returns the single unrelated track scored 50. -/
theorem c10_witness :
    Db.search_tracks_by_metadata Db.emptyMetaDb (some []) (some []) none 5 =
      [(77, 50)] :=
  (c10_empty_filters_return_arbitrary_tracks.1 Db.emptyMetaDb (some []) (some [])
      none 5 (Or.inr (by decide)) (Or.inr (by decide))).trans (by decide)

/-- C7 amended witness: the learned artist alias of `aliasExampleDb` is
keyed by the lower-cased raw string and was globally fresh. -/
theorem c7_amended_witness :
    ({ artist_id := some 5, alias_normalized := lc "beyoncé" } : Db.ArtistAliasRow) ∈
        Db.aliasExampleDb.artist_aliases ∨
      (((Db.aliasExampleDb.listens.find? fun l => l.id = 1).bind
            Db.Listen.artist_name_raw).map pyLowerStr = some (lc "beyoncé") ∧
        ∀ r2 ∈ Db.aliasExampleDb.artist_aliases,
          r2.alias_normalized ≠ lc "beyoncé") :=
  (c7_amended_alias_keys_lowercased_globally_unique Db.aliasExampleDb 1 10).1
    { artist_id := some 5, alias_normalized := lc "beyoncé" } (by decide)

/-- C6 amended witness: instantiating the tie-break characterization at the
counter of `[3, 3, 2, 2, 1]`. -/
theorem c6_amended_witness :
    ∃ pre cnt post, counterOf [3, 3, 2, 2, 1] = pre ++ (3, cnt) :: post ∧
      (∀ x ∈ pre, x.2 < cnt) ∧ (∀ x ∈ post, x.2 ≤ cnt) :=
  c6_amended_tie_first_inserted.1 [3, 3, 2, 2, 1] 3 (by decide)

end Claims
